import Mathlib

set_option linter.unusedSectionVars false
set_option linter.unnecessarySimpa false

/-!
Verification of the optimized word-frequency analyzer
(`optimized_linked_list_analyzer.py`).

The development shallowly embeds the analyzer: the `Counter` of word
counts becomes an insertion-ordered association list, the two doubly
linked lists (top-five list and frequency-count list) become plain Lean
lists read head to tail, and Python strings are compared through their
character sequences (code-point order), mirroring Python string
comparison.  Tokenization is modelled character by character because the
source splits on commas, strips whitespace and lower-cases each piece.
-/

namespace WordFreq

/-- Whitespace test used by `str.strip()` on the batch pieces. -/
def isSpaceChar (c : Char) : Bool := c.isWhitespace

/-- Python's `s.split(',')`: split at every comma, keeping empty pieces;
the empty string yields one empty piece. -/
def splitOnComma : List Char → List (List Char)
  | [] => [[]]
  | c :: cs =>
      if c = ',' then [] :: splitOnComma cs
      else
        match splitOnComma cs with
        | [] => [[c]]
        | piece :: rest => (c :: piece) :: rest

/-- Python's `str.strip()`: drop whitespace from both ends. -/
def trimChars (cs : List Char) : List Char :=
  ((cs.dropWhile isSpaceChar).reverse.dropWhile isSpaceChar).reverse

/-- Python's `str.lower()` on the characters of a token. -/
def lowerChars (cs : List Char) : List Char := cs.map Char.toLower

/-- The tokenizer of `add_words`:
`[word.strip().lower() for word in words_string.split(',') if word.strip()]`. -/
def tokenize (s : String) : List String :=
  ((splitOnComma s.data).filter (fun piece => !(trimChars piece).isEmpty)).map
    (fun piece => String.mk (lowerChars (trimChars piece)))

/-- Lexicographic (code-point) comparison of character lists, the order
Python uses on strings: `a ≤ b`. -/
def charsLe : List Char → List Char → Bool
  | [], _ => true
  | _ :: _, [] => false
  | a :: as, b :: bs => if a < b then true else if b < a then false else charsLe as bs

/-- Python's `a <= b` on strings. -/
def wordLe (a b : String) : Bool := charsLe a.data b.data

/-- Python's `a < b` on strings. -/
def wordLt (a b : String) : Bool := !(wordLe b a)

/-- A `(word, frequency)` pair, as stored in `word_counts` and in the
top-five list. -/
abbrev Entry := String × Nat

/-- Reading `self.word_counts[word]` from the `Counter` (0 when absent). -/
def lookupCount (wc : List Entry) (w : String) : Nat :=
  match wc.find? (fun p => p.1 == w) with
  | some p => p.2
  | none => 0

/-- `self.word_counts[word] += 1`: update the entry in place, or append a
fresh entry with count 1 (Python dicts keep insertion order). -/
def bumpWord (wc : List Entry) (w : String) : List Entry :=
  if wc.any (fun p => p.1 == w) then
    wc.map (fun p => if p.1 == w then (p.1, p.2 + 1) else p)
  else wc ++ [(w, 1)]

/-- Reading `changes.get(frequency, 0)` from the per-batch delta map. -/
def chLookup (ch : List (Nat × Int)) (f : Nat) : Int :=
  match ch.find? (fun p => p.1 == f) with
  | some p => p.2
  | none => 0

/-- `changes[f] = changes.get(f, 0) + d` on the per-batch delta map. -/
def bumpChange (ch : List (Nat × Int)) (f : Nat) (d : Int) : List (Nat × Int) :=
  if ch.any (fun p => p.1 == f) then
    ch.map (fun p => if p.1 == f then (p.1, p.2 + d) else p)
  else ch ++ [(f, d)]

/-- Adding a word to the `changed_words` set (first-occurrence order). -/
def addChanged (s : List String) (w : String) : List String :=
  if s.contains w then s else s ++ [w]

/-- The per-batch mutable state of `add_words` while it walks the token
list: the counter, the delta map, the changed-word set and the running
total. -/
structure BatchAcc where
  wc : List Entry
  changes : List (Nat × Int)
  changed : List String
  total : Nat

/-- One iteration of the token loop in `add_words`. -/
def processToken (acc : BatchAcc) (w : String) : BatchAcc :=
  let oldCount := lookupCount acc.wc w
  let wc := bumpWord acc.wc w
  let newCount := oldCount + 1
  let ch := if 0 < oldCount then bumpChange acc.changes oldCount (-1) else acc.changes
  let ch2 := bumpChange ch newCount 1
  let cw := if oldCount ≠ newCount then addChanged acc.changed w else acc.changed
  { wc := wc, changes := ch2, changed := cw, total := acc.total + 1 }

/-- `_find_frequency_node`: first node carrying the given frequency. -/
def findFreqNode (l : List (Nat × Int)) (f : Nat) : Option (Nat × Int) :=
  l.find? (fun p => p.1 == f)

/-- `_insert_frequency_node`: walk past the strictly larger frequencies
and link the new node in (the list is kept descending). -/
def insertFreqNode : List (Nat × Int) → Nat → Int → List (Nat × Int)
  | [], f, c => [(f, c)]
  | node :: rest, f, c =>
      if f < node.1 then node :: insertFreqNode rest f c
      else (f, c) :: node :: rest

/-- Overwrite the count of the first node with the given frequency
(`node.count += change` acting on the found node). -/
def setFreqCount : List (Nat × Int) → Nat → Int → List (Nat × Int)
  | [], _, _ => []
  | node :: rest, f, c => if node.1 == f then (f, c) :: rest else node :: setFreqCount rest f c

/-- `_remove_frequency_node` applied to the node found for `f`. -/
def removeFreqNode (l : List (Nat × Int)) (f : Nat) : List (Nat × Int) :=
  l.eraseP (fun p => p.1 == f)

/-- The body of the loop in `_update_frequency_counts` for one delta-map
entry: skip zero deltas, add the delta to an existing node (removing it
when its count drops to 0 or below), or insert a fresh node for a
positive delta. -/
def applyDelta (l : List (Nat × Int)) (f : Nat) (change : Int) : List (Nat × Int) :=
  if change = 0 then l
  else
    match findFreqNode l f with
    | some node =>
        let c := node.2 + change
        if c ≤ 0 then removeFreqNode l f else setFreqCount l f c
    | none => if 0 < change then insertFreqNode l f change else l

/-- `_update_frequency_counts`: fold the delta map (in insertion order)
into the frequency-count list. -/
def updateFrequencyCounts (l : List (Nat × Int)) (changes : List (Nat × Int)) :
    List (Nat × Int) :=
  changes.foldl (fun acc p => applyDelta acc p.1 p.2) l

/-- The total order used for the top-five list: frequency descending,
then word ascending. -/
def leTop (a b : Entry) : Prop := b.2 < a.2 ∨ (a.2 = b.2 ∧ wordLe a.1 b.1 = true)

instance decLeTop : DecidableRel leTop := fun a b =>
  inferInstanceAs (Decidable (b.2 < a.2 ∨ (a.2 = b.2 ∧ wordLe a.1 b.1 = true)))

/-- Sorting by `key=lambda x: (-x[1], x[0])`. -/
def sortTop (l : List Entry) : List Entry := List.insertionSort leTop l

/-- `_should_be_in_top5`. -/
def shouldBeInTop5 (w : String) (freq : Nat) (t : List Entry) : Bool :=
  if t.length < 5 then true
  else
    match t[4]? with
    | some fifth => decide (fifth.2 < freq) || (freq == fifth.2 && wordLt w fifth.1)
    | none => false

/-- `_insert_or_update_in_top5`: drop any entry for the word, append the
new pair, re-sort, keep the first five. -/
def insertOrUpdateInTop5 (w : String) (freq : Nat) (t : List Entry) : List Entry :=
  (sortTop ((t.filter (fun p => p.1 != w)) ++ [(w, freq)])).take 5

/-- `_build_initial_top5`: sort the whole vocabulary, keep five. -/
def buildInitialTop5 (wc : List Entry) : List Entry := (sortTop wc).take 5

/-- One iteration of the changed-word loop of
`_update_top_five_incremental`. -/
def reconcileStep (wc : List Entry) (t : List Entry) (w : String) : List Entry :=
  let freq := lookupCount wc w
  if shouldBeInTop5 w freq t then insertOrUpdateInTop5 w freq t else t

/-- `_update_top_five_incremental`: full rebuild when the current list is
empty, otherwise the incremental reconciliation loop. -/
def updateTopFiveIncremental (wc : List Entry) (t : List Entry) (changed : List String) :
    List Entry :=
  if t.isEmpty then buildInitialTop5 wc
  else changed.foldl (reconcileStep wc) t

/-- The analyzer state: the counter, the top-five list and the
frequency-count list (both linked lists read head to tail), and the
running total of processed tokens. -/
structure Analyzer where
  word_counts : List Entry
  top_five : List Entry
  freq_list : List (Nat × Int)
  total_words : Nat
deriving DecidableEq

/-- `OptimizedWordFrequencyAnalyzer.__init__`. -/
def Analyzer.init : Analyzer :=
  { word_counts := [], top_five := [], freq_list := [], total_words := 0 }

/-- `add_words`. -/
def addWords (a : Analyzer) (wordsString : String) : Analyzer :=
  let words := tokenize wordsString
  if words.isEmpty then a
  else
    let acc := words.foldl processToken
      { wc := a.word_counts, changes := [], changed := [], total := a.total_words }
    let freqList := updateFrequencyCounts a.freq_list acc.changes
    let topFive :=
      if !acc.changed.isEmpty then updateTopFiveIncremental acc.wc a.top_five acc.changed
      else a.top_five
    { word_counts := acc.wc, top_five := topFive, freq_list := freqList,
      total_words := acc.total }

/-- `clear`: every structure is reset. -/
def clear (_ : Analyzer) : Analyzer := Analyzer.init

/-- `get_top_five_most_frequent`. -/
def getTopFiveMostFrequent (a : Analyzer) : List Entry := a.top_five

/-- `get_lowest_frequency`: frequency of the tail node, 0 when empty. -/
def getLowestFrequency (a : Analyzer) : Nat :=
  match a.freq_list.getLast? with
  | some node => node.1
  | none => 0

/-- `get_median_frequency`: sort the per-word frequency values ascending
and take the midpoint (exact rational arithmetic stands in for Python
floats, which are exact on these values). -/
def getMedianFrequency (a : Analyzer) : ℚ :=
  if a.word_counts.isEmpty then 0
  else
    let v := List.insertionSort (fun x y : Nat => x ≤ y) (a.word_counts.map (fun p => p.2))
    let n := v.length
    if n % 2 = 0 then ((v.getD (n / 2 - 1) 0 : ℚ) + (v.getD (n / 2) 0 : ℚ)) / 2
    else (v.getD (n / 2) 0 : ℚ)

/-- `get_all_frequencies`. -/
def getAllFrequencies (a : Analyzer) : List Entry := a.word_counts

/-- `get_frequency_counts`. -/
def getFrequencyCounts (a : Analyzer) : List (Nat × Int) := a.freq_list

/-- The operations reaching an analyzer state: ingest a raw batch, or
reset. -/
inductive Op where
  | ingest (raw : String)
  | reset
deriving DecidableEq

/-- Apply one operation. -/
def stepOp (a : Analyzer) : Op → Analyzer
  | .ingest raw => addWords a raw
  | .reset => clear a

/-- Run a sequence of operations on a fresh analyzer. -/
def runOps (ops : List Op) : Analyzer := ops.foldl stepOp Analyzer.init

/-- Whether an `add_words` call on state `a` takes the
`_build_initial_top5` full-rebuild path. -/
def rebuildTriggered (a : Analyzer) (raw : String) : Bool :=
  let words := tokenize raw
  if words.isEmpty then false
  else
    let acc := words.foldl processToken
      { wc := a.word_counts, changes := [], changed := [], total := a.total_words }
    !acc.changed.isEmpty && a.top_five.isEmpty

/-- One step of the rebuild-counting runner: apply the operation and
add one whenever the `_build_initial_top5` path fires. -/
def rebuildStep (p : Analyzer × Nat) (op : Op) : Analyzer × Nat :=
  match op with
  | .ingest raw => (addWords p.1 raw, p.2 + (if rebuildTriggered p.1 raw then 1 else 0))
  | .reset => (clear p.1, p.2)

/-- Number of full top-five rebuilds performed along an operation
sequence. -/
def countRebuilds (ops : List Op) : Nat :=
  (ops.foldl rebuildStep (Analyzer.init, 0)).2

/-- Brute-force top-K from the spec: all words with frequency at least 1,
sorted by (frequency descending, word ascending), first five. -/
def specTopK (wc : List Entry) : List Entry :=
  (sortTop (wc.filter (fun p => 1 ≤ p.2))).take 5

/-- Number of occurrences of normalized token `w` across the batches
ingested since construction or the most recent reset. -/
def occurrencesSinceReset (ops : List Op) (w : String) : Nat :=
  ops.foldl
    (fun n op =>
      match op with
      | .ingest raw => n + (tokenize raw).count w
      | .reset => 0)
    0

/-- The per-word frequency values of a vocabulary. -/
def valsOf (wc : List Entry) : List Nat := wc.map (fun p => p.2)

/-- Statistical median of a multiset of frequencies, written from the
spec: sort ascending, average the two central values when the size is
even, take the central value when odd, 0 when empty. -/
def specMedian (m : Multiset Nat) : ℚ :=
  if m = 0 then 0
  else
    let v := Multiset.sort (fun x y : Nat => x ≤ y) m
    let n := v.length
    if n % 2 = 0 then ((v.getD (n / 2 - 1) 0 : ℚ) + (v.getD (n / 2) 0 : ℚ)) / 2
    else (v.getD (n / 2) 0 : ℚ)

/-- Minimum of a list of frequency values, 0 when there are none. -/
def minVal : List Nat → Nat
  | [] => 0
  | [x] => x
  | x :: y :: rest => min x (minVal (y :: rest))

/-- Updating a word's count to an absolute value (in place when present,
appended when absent); `bumpWord` is `setKey` at the old count plus one,
and the hybrid vocabularies of the reconciliation proof are built from
it. -/
def setKey (wc : List Entry) (w : String) (f : Nat) : List Entry :=
  if wc.any (fun p => p.1 == w) then
    wc.map (fun p => if p.1 == w then (p.1, f) else p)
  else wc ++ [(w, f)]

/-- The vocabulary seen by the reconciliation loop after a prefix `P` of
the changed words has been processed: words of `P` already carry their
new counts, the rest still carry the old ones. -/
def hybridWc (wc : List Entry) (lk : String → Nat) (P : List String) : List Entry :=
  P.foldl (fun V w => setKey V w (lk w)) wc

/-- Keys of an association list. -/
def fkeys {α β : Type _} (l : List (α × β)) : List α := l.map Prod.fst

section OrderLemmas

theorem charsLe_refl (l : List Char) : charsLe l l = true := by
  induction l with
  | nil => rfl
  | cons a as ih => simp [charsLe, ih]

theorem charsLe_total (a b : List Char) : charsLe a b = true ∨ charsLe b a = true := by
  induction a generalizing b with
  | nil => left; rfl
  | cons x xs ih =>
    cases b with
    | nil => right; rfl
    | cons y ys =>
      rcases lt_trichotomy x y with h | h | h
      · left; simp [charsLe, h]
      · subst h
        rcases ih ys with h2 | h2
        · left; simp [charsLe, h2]
        · right; simp [charsLe, h2]
      · right; simp [charsLe, h]

theorem charsLe_antisymm : ∀ {a b : List Char},
    charsLe a b = true → charsLe b a = true → a = b := by
  intro a
  induction a with
  | nil =>
    intro b h1 h2
    cases b with
    | nil => rfl
    | cons y ys => exact absurd h2 (by simp [charsLe])
  | cons x xs ih =>
    intro b h1 h2
    cases b with
    | nil => exact absurd h1 (by simp [charsLe])
    | cons y ys =>
      rcases lt_trichotomy x y with h | h | h
      · rw [charsLe, if_neg (lt_asymm h), if_pos h] at h2
        exact absurd h2 (by simp)
      · subst h
        rw [charsLe, if_neg (lt_irrefl x)] at h1 h2
        rw [if_neg (lt_irrefl x)] at h1 h2
        rw [ih h1 h2]
      · rw [charsLe, if_neg (lt_asymm h), if_pos h] at h1
        exact absurd h1 (by simp)

theorem charsLe_trans : ∀ {a b c : List Char},
    charsLe a b = true → charsLe b c = true → charsLe a c = true := by
  intro a
  induction a with
  | nil => intro b c _ _; rfl
  | cons x xs ih =>
    intro b c h1 h2
    cases b with
    | nil => exact absurd h1 (by simp [charsLe])
    | cons y ys =>
      cases c with
      | nil => exact absurd h2 (by simp [charsLe])
      | cons z zs =>
        rcases lt_trichotomy x y with hxy | hxy | hxy
        · rcases lt_trichotomy y z with hyz | hyz | hyz
          · simp [charsLe, lt_trans hxy hyz]
          · subst hyz; simp [charsLe, hxy]
          · rw [charsLe, if_neg (lt_asymm hyz), if_pos hyz] at h2
            exact absurd h2 (by simp)
        · subst hxy
          rw [charsLe, if_neg (lt_irrefl x), if_neg (lt_irrefl x)] at h1
          rcases lt_trichotomy x z with hyz | hyz | hyz
          · simp [charsLe, hyz]
          · subst hyz
            rw [charsLe, if_neg (lt_irrefl x), if_neg (lt_irrefl x)] at h2 ⊢
            exact ih h1 h2
          · rw [charsLe, if_neg (lt_asymm hyz), if_pos hyz] at h2
            exact absurd h2 (by simp)
        · rw [charsLe, if_neg (lt_asymm hxy), if_pos hxy] at h1
          exact absurd h1 (by simp)

theorem wordLe_refl (a : String) : wordLe a a = true := charsLe_refl _

theorem wordLe_total (a b : String) : wordLe a b = true ∨ wordLe b a = true :=
  charsLe_total _ _

theorem wordLe_antisymm {a b : String} (h1 : wordLe a b = true)
    (h2 : wordLe b a = true) : a = b :=
  String.ext (charsLe_antisymm h1 h2)

theorem wordLe_trans {a b c : String} (h1 : wordLe a b = true)
    (h2 : wordLe b c = true) : wordLe a c = true :=
  charsLe_trans h1 h2

theorem wordLt_eq_not_le (a b : String) : wordLt a b = !(wordLe b a) := rfl

instance : IsTotal Entry leTop :=
  ⟨fun a b => by
    rcases Nat.lt_trichotomy a.2 b.2 with h | h | h
    · exact Or.inr (Or.inl h)
    · rcases wordLe_total a.1 b.1 with h2 | h2
      · exact Or.inl (Or.inr ⟨h, h2⟩)
      · exact Or.inr (Or.inr ⟨h.symm, h2⟩)
    · exact Or.inl (Or.inl h)⟩

instance : IsTrans Entry leTop :=
  ⟨fun a b c hab hbc => by
    rcases hab with h | ⟨h1, h2⟩
    · rcases hbc with h' | ⟨h1', h2'⟩
      · exact Or.inl (lt_trans h' h)
      · exact Or.inl (h1' ▸ h)
    · rcases hbc with h' | ⟨h1', h2'⟩
      · exact Or.inl (h1 ▸ h')
      · exact Or.inr ⟨h1.trans h1', wordLe_trans h2 h2'⟩⟩

instance : IsAntisymm Entry leTop :=
  ⟨fun a b hab hba => by
    rcases hab with h | ⟨h1, h2⟩
    · rcases hba with h' | ⟨h1', h2'⟩
      · exact absurd h' (Nat.lt_asymm h)
      · exact absurd h (by omega)
    · rcases hba with h' | ⟨h1', h2'⟩
      · exact absurd h' (by omega)
      · exact Prod.ext (wordLe_antisymm h2 h2') h1⟩

theorem sortTop_sorted (l : List Entry) : List.Sorted leTop (sortTop l) :=
  List.sorted_insertionSort leTop l

theorem sortTop_perm (l : List Entry) : (sortTop l).Perm l :=
  List.perm_insertionSort leTop l

theorem sortTop_congr {l l' : List Entry} (h : l.Perm l') : sortTop l = sortTop l' :=
  List.eq_of_perm_of_sorted
    ((sortTop_perm l).trans (h.trans (sortTop_perm l').symm))
    (sortTop_sorted l) (sortTop_sorted l')

end OrderLemmas

theorem mem_fkeys {α β : Type _} {l : List (α × β)} {x : α} :
    x ∈ fkeys l ↔ ∃ p ∈ l, p.1 = x := by
  simp [fkeys]

section AssocLemmas

variable {α β : Type _} [BEq α] [LawfulBEq α]

/-- A key-preserving in-place map commutes with lookup by key. -/
theorem find?_key_map_update (l : List (α × β)) (u x : α) (g : β → β) :
    (l.map (fun p => if p.1 == u then (p.1, g p.2) else p)).find? (fun p => p.1 == x) =
      (l.find? (fun p => p.1 == x)).map (fun p => if p.1 == u then (p.1, g p.2) else p) := by
  induction l with
  | nil => rfl
  | cons p rest ih =>
    have hkey : ((if p.1 == u then (p.1, g p.2) else p).1 == x) = (p.1 == x) := by
      by_cases h : (p.1 == u) = true <;> simp [h]
    simp only [List.map_cons, List.find?_cons, hkey]
    cases hx : (p.1 == x) with
    | true => simp
    | false => simpa using ih

theorem fkeys_map_update (l : List (α × β)) (u : α) (g : β → β) :
    fkeys (l.map (fun p => if p.1 == u then (p.1, g p.2) else p)) = fkeys l := by
  induction l with
  | nil => rfl
  | cons p rest ih =>
    by_cases hpu : p.1 = u
    · simp only [fkeys, List.map_cons] at ih ⊢
      rw [if_pos (by simpa using hpu)]
      simpa [fkeys] using ih
    · simp only [fkeys, List.map_cons] at ih ⊢
      rw [if_neg (by simpa using hpu)]
      simpa [fkeys] using ih

theorem find?_key_eq_none_of_not_mem {l : List (α × β)} {x : α}
    (h : x ∉ fkeys l) : l.find? (fun p => p.1 == x) = none := by
  rw [List.find?_eq_none]
  intro p hp hbeq
  exact h (mem_fkeys.mpr ⟨p, hp, by simpa using hbeq⟩)

theorem find?_key_mem_and_key {l : List (α × β)} {x : α} {p : α × β}
    (h : l.find? (fun q => q.1 == x) = some p) : p ∈ l ∧ p.1 = x :=
  ⟨List.mem_of_find?_eq_some h, by simpa using List.find?_some h⟩

/-- In a list with no duplicate keys, an entry's value is what lookup by
its key finds. -/
theorem find?_key_of_mem_nodup {l : List (α × β)} {p : α × β}
    (hnd : (fkeys l).Nodup) (hp : p ∈ l) :
    l.find? (fun q => q.1 == p.1) = some p := by
  induction l with
  | nil => cases hp
  | cons q rest ih =>
    rcases List.mem_cons.mp hp with hp | hp
    · subst hp
      simp [List.find?_cons]
    · have hq : q.1 ≠ p.1 := by
        intro hcontra
        simp only [fkeys, List.map_cons, List.nodup_cons] at hnd
        exact hnd.1 (hcontra ▸ mem_fkeys.mpr ⟨p, hp, rfl⟩)
      have hnd' : (fkeys rest).Nodup := by
        simp only [fkeys, List.map_cons, List.nodup_cons] at hnd
        exact hnd.2
      simp [List.find?_cons, hq, ih hnd' hp]

end AssocLemmas

section AssocUpd

variable {α β : Type _} [BEq α] [LawfulBEq α] [DecidableEq α]

/-- Generic form shared by `bumpWord`, `bumpChange` and `setKey`: update
the entry for a key in place, or append a fresh entry. -/
def assocUpd (l : List (α × β)) (k : α) (g : β → β) (v₀ : β) : List (α × β) :=
  if l.any (fun p => p.1 == k) then
    l.map (fun p => if p.1 == k then (p.1, g p.2) else p)
  else l ++ [(k, v₀)]

/-- Generic lookup with default, shared by `lookupCount` and
`chLookup`. -/
def assocLookup (l : List (α × β)) (k : α) (d : β) : β :=
  match l.find? (fun p => p.1 == k) with
  | some p => p.2
  | none => d

/-- The value the updated entry carries after `assocUpd`. -/
def assocUpdVal (l : List (α × β)) (k : α) (g : β → β) (v₀ : β) : β :=
  match l.find? (fun p => p.1 == k) with
  | some p => g p.2
  | none => v₀

theorem bumpWord_eq_assocUpd (wc : List Entry) (w : String) :
    bumpWord wc w = assocUpd wc w (fun c => c + 1) 1 := rfl

theorem bumpChange_eq_assocUpd (ch : List (Nat × Int)) (f : Nat) (d : Int) :
    bumpChange ch f d = assocUpd ch f (fun c => c + d) d := rfl

theorem setKey_eq_assocUpd (wc : List Entry) (w : String) (f : Nat) :
    setKey wc w f = assocUpd wc w (fun _ => f) f := rfl

theorem lookupCount_eq_assocLookup (wc : List Entry) (w : String) :
    lookupCount wc w = assocLookup wc w 0 := by
  cases h : wc.find? (fun p => p.1 == w) <;> simp [lookupCount, assocLookup, h]

theorem chLookup_eq_assocLookup (ch : List (Nat × Int)) (f : Nat) :
    chLookup ch f = assocLookup ch f 0 := by
  cases h : ch.find? (fun p => p.1 == f) <;> simp [chLookup, assocLookup, h]

theorem any_key_iff {l : List (α × β)} {k : α} :
    l.any (fun p => p.1 == k) = true ↔ k ∈ fkeys l := by
  rw [List.any_eq_true, mem_fkeys]
  constructor
  · rintro ⟨p, hp, hbeq⟩; exact ⟨p, hp, by simpa using hbeq⟩
  · rintro ⟨p, hp, hkey⟩; exact ⟨p, hp, by simpa using hkey⟩

theorem filter_ne_key_of_not_mem {l : List (α × β)} {k : α} (h : k ∉ fkeys l) :
    l.filter (fun p => !(p.1 == k)) = l := by
  rw [List.filter_eq_self]
  intro p hp
  have : p.1 ≠ k := fun hc => h (mem_fkeys.mpr ⟨p, hp, hc⟩)
  simpa using this

theorem map_update_eq_of_not_mem {l : List (α × β)} {k : α} (g : β → β)
    (h : k ∉ fkeys l) :
    l.map (fun p => if p.1 == k then (p.1, g p.2) else p) = l := by
  have heq : l.map (fun p => if p.1 == k then (p.1, g p.2) else p) = l.map id :=
    List.map_congr_left (fun p hp => by
      have hne : p.1 ≠ k := fun hc => h (mem_fkeys.mpr ⟨p, hp, hc⟩)
      simp [hne])
  simpa using heq

/-- When the key is absent, the update is a plain append. -/
theorem assocUpd_perm_of_not_mem {l : List (α × β)} {k : α} (g : β → β) (v₀ : β)
    (hk : k ∉ fkeys l) :
    (assocUpd l k g v₀).Perm
      ((k, assocUpdVal l k g v₀) :: l.filter (fun p => !(p.1 == k))) := by
  have hany : ¬((l.any fun q => q.1 == k) = true) := fun h => hk (any_key_iff.mp h)
  rw [assocUpd, if_neg hany, assocUpdVal, find?_key_eq_none_of_not_mem hk,
    filter_ne_key_of_not_mem hk]
  exact List.perm_append_singleton _ _

/-- After an update, the list is (up to order) the updated entry plus all
entries with other keys. -/
theorem assocUpd_perm {l : List (α × β)} {k : α} (g : β → β) (v₀ : β)
    (hnd : (fkeys l).Nodup) :
    (assocUpd l k g v₀).Perm
      ((k, assocUpdVal l k g v₀) :: l.filter (fun p => !(p.1 == k))) := by
  induction l with
  | nil => exact assocUpd_perm_of_not_mem g v₀ (by simp [fkeys])
  | cons p rest ih =>
    have hnd' : (fkeys rest).Nodup := by
      simpa [fkeys, List.nodup_cons] using And.intro trivial (List.nodup_cons.mp hnd).2
    have hhead : p.1 ∉ fkeys rest := by
      have := (List.nodup_cons.mp (show (p.1 :: fkeys rest).Nodup from hnd)).1
      exact this
    by_cases hpk : p.1 = k
    · subst hpk
      have hany : ((p :: rest).any fun q => q.1 == p.1) = true :=
        any_key_iff.mpr (by simp [fkeys])
      rw [assocUpd, if_pos hany]
      have hrest : rest.map (fun q => if q.1 == p.1 then (q.1, g q.2) else q) = rest :=
        map_update_eq_of_not_mem g hhead
      have hfil : rest.filter (fun q => !(q.1 == p.1)) = rest :=
        filter_ne_key_of_not_mem hhead
      have hval : assocUpdVal (p :: rest) p.1 g v₀ = g p.2 := by
        simp [assocUpdVal, List.find?_cons]
      rw [List.map_cons, if_pos (show (p.1 == p.1) = true by simp), hrest, hval,
        List.filter_cons, if_neg (show ¬((!(p.1 == p.1)) = true) by simp), hfil]
    · have hkey : (p.1 == k) = false := by simpa using hpk
      by_cases hk : k ∈ fkeys rest
      · have hany : ((p :: rest).any fun q => q.1 == k) = true := by
          rcases mem_fkeys.mp hk with ⟨q, hq, hqk⟩
          exact List.any_eq_true.mpr ⟨q, List.mem_cons_of_mem p hq, by simpa using hqk⟩
        have hany' : (rest.any fun q => q.1 == k) = true := any_key_iff.mpr hk
        rw [assocUpd, if_pos hany]
        have ihp := ih hnd'
        rw [assocUpd, if_pos hany'] at ihp
        have hval : assocUpdVal (p :: rest) k g v₀ = assocUpdVal rest k g v₀ := by
          simp [assocUpdVal, List.find?_cons, hkey]
        rw [List.map_cons, if_neg (by simp [hkey]), hval, List.filter_cons,
          if_pos (by simp [hkey])]
        exact (ihp.cons p).trans (List.Perm.swap _ _ _)
      · have hk2 : k ∉ fkeys (p :: rest) := by
          intro hmem
          rcases mem_fkeys.mp hmem with ⟨q, hq, hqk⟩
          rcases List.mem_cons.mp hq with hq | hq
          · exact hpk (hq ▸ hqk)
          · exact hk (mem_fkeys.mpr ⟨q, hq, hqk⟩)
        exact assocUpd_perm_of_not_mem g v₀ hk2

theorem assocLookup_upd (l : List (α × β)) (k : α) (g : β → β) (v₀ : β) (x : α) (d : β) :
    assocLookup (assocUpd l k g v₀) x d =
      if x = k then assocUpdVal l k g v₀ else assocLookup l x d := by
  by_cases hmem : k ∈ fkeys l
  · have hupd : assocUpd l k g v₀ = l.map (fun p => if p.1 == k then (p.1, g p.2) else p) := by
      rw [assocUpd, if_pos (any_key_iff.mpr hmem)]
    rw [hupd]
    unfold assocLookup
    rw [find?_key_map_update]
    cases hf : l.find? (fun p => p.1 == x) with
    | none =>
      by_cases hxk : x = k
      · subst hxk
        rcases mem_fkeys.mp hmem with ⟨p, hp, hpk⟩
        exact absurd (by simpa using hpk) (List.find?_eq_none.mp hf p hp)
      · simp [hxk]
    | some p =>
      have hpx : p.1 = x := (find?_key_mem_and_key hf).2
      by_cases hxk : x = k
      · subst hxk
        simp [assocUpdVal, hf, hpx]
      · have hne : p.1 ≠ k := by rw [hpx]; exact hxk
        simp [hne, hxk]
  · have hupd : assocUpd l k g v₀ = l ++ [(k, v₀)] := by
      rw [assocUpd, if_neg (fun h => hmem (any_key_iff.mp h))]
    rw [hupd]
    unfold assocLookup
    rw [List.find?_append]
    by_cases hxk : x = k
    · subst hxk
      rw [find?_key_eq_none_of_not_mem hmem]
      simp [assocUpdVal, find?_key_eq_none_of_not_mem hmem, List.find?_cons]
    · have hkx : (k == x) = false := beq_eq_false_iff_ne.mpr (Ne.symm hxk)
      have hnone : ([(k, v₀)].find? (fun p => p.1 == x)) = none := by
        simp [List.find?_cons, hkx]
      rw [hnone]
      simp [hxk]

theorem fkeys_upd_mem (l : List (α × β)) (k : α) (g : β → β) (v₀ : β) (x : α) :
    x ∈ fkeys (assocUpd l k g v₀) ↔ x ∈ fkeys l ∨ x = k := by
  by_cases hmem : k ∈ fkeys l
  · rw [assocUpd, if_pos (any_key_iff.mpr hmem), fkeys_map_update]
    constructor
    · exact Or.inl
    · rintro (h | h)
      · exact h
      · exact h ▸ hmem
  · rw [assocUpd, if_neg (fun h => hmem (any_key_iff.mp h))]
    simp [fkeys]

theorem not_mem_fkeys_filter (l : List (α × β)) (k : α) :
    k ∉ fkeys (l.filter (fun p => !(p.1 == k))) := by
  intro h
  rcases mem_fkeys.mp h with ⟨p, hp, hpk⟩
  have hfil := (List.mem_filter.mp hp).2
  simp [hpk] at hfil

theorem nodup_fkeys_filter {l : List (α × β)} (hnd : (fkeys l).Nodup) (k : α) :
    (fkeys (l.filter (fun p => !(p.1 == k)))).Nodup :=
  List.Nodup.sublist ((l.filter_sublist).map Prod.fst) hnd

theorem fkeys_upd_nodup {l : List (α × β)} {k : α} (g : β → β) (v₀ : β)
    (hnd : (fkeys l).Nodup) : (fkeys (assocUpd l k g v₀)).Nodup := by
  have hperm : (fkeys (assocUpd l k g v₀)).Perm
      (k :: fkeys (l.filter (fun p => !(p.1 == k)))) :=
    (assocUpd_perm g v₀ hnd).map Prod.fst
  exact hperm.symm.nodup
    (List.nodup_cons.mpr ⟨not_mem_fkeys_filter l k, nodup_fkeys_filter hnd k⟩)

theorem mem_assocUpd {l : List (α × β)} {k : α} {g : β → β} {v₀ : β}
    (hnd : (fkeys l).Nodup) {p : α × β} :
    p ∈ assocUpd l k g v₀ ↔
      p = (k, assocUpdVal l k g v₀) ∨ (p ∈ l ∧ p.1 ≠ k) := by
  rw [(assocUpd_perm g v₀ hnd).mem_iff]
  simp [List.mem_filter, List.mem_cons, and_assoc]

theorem length_le_assocUpd (l : List (α × β)) (k : α) (g : β → β) (v₀ : β) :
    l.length ≤ (assocUpd l k g v₀).length := by
  unfold assocUpd
  split
  · rw [List.length_map]
  · rw [List.length_append]
    simp

/-- A duplicate-free association list splits into the entry for a present
key plus the entries for the other keys. -/
theorem assoc_split {l : List (α × β)} {k : α} (hnd : (fkeys l).Nodup)
    (hk : k ∈ fkeys l) (d : β) :
    l.Perm ((k, assocLookup l k d) :: l.filter (fun p => !(p.1 == k))) := by
  have h := assocUpd_perm (l := l) (k := k) (fun v => v) d hnd
  have hupd : assocUpd l k (fun v => v) d = l := by
    rw [assocUpd, if_pos (any_key_iff.mpr hk)]
    have heq : l.map (fun p => if p.1 == k then (p.1, p.2) else p) = l.map id :=
      List.map_congr_left (fun p _ => by split <;> rfl)
    simpa using heq
  have hval : assocUpdVal l k (fun v => v) d = assocLookup l k d := by
    unfold assocUpdVal assocLookup
    cases hf : l.find? (fun p => p.1 == k) <;> simp
  rw [hupd, hval] at h
  exact h

/-- An absent key looks up to the default. -/
theorem assocLookup_of_not_mem {l : List (α × β)} {k : α} (h : k ∉ fkeys l) (d : β) :
    assocLookup l k d = d := by
  unfold assocLookup
  rw [find?_key_eq_none_of_not_mem h]

/-- A present key's entry is in the list. -/
theorem lookup_entry_mem {l : List (α × β)} {k : α} (hk : k ∈ fkeys l) (d : β) :
    (k, assocLookup l k d) ∈ l := by
  rcases mem_fkeys.mp hk with ⟨p, hp, hpk⟩
  cases hf : l.find? (fun q => q.1 == k) with
  | none =>
    exact absurd (by simpa using hpk) (List.find?_eq_none.mp hf p hp)
  | some q =>
    have hq := find?_key_mem_and_key hf
    have : assocLookup l k d = q.2 := by unfold assocLookup; rw [hf]
    rw [this, ← hq.2]
    exact hq.1

/-- In a duplicate-free association list an entry is determined by its
key. -/
theorem entry_eq_of_mem_nodup {l : List (α × β)} {p : α × β}
    (hnd : (fkeys l).Nodup) (hp : p ∈ l) (d : β) :
    p.2 = assocLookup l p.1 d := by
  have h := find?_key_of_mem_nodup hnd hp
  unfold assocLookup
  rw [h]

end AssocUpd

section EntryLemmas

theorem assocUpdVal_const {α β : Type _} [BEq α] (l : List (α × β)) (k : α) (f : β) :
    assocUpdVal l k (fun _ => f) f = f := by
  unfold assocUpdVal
  cases hf : l.find? (fun p => p.1 == k) <;> simp

theorem lookupCount_setKey (wc : List Entry) (w : String) (f : Nat) (x : String) :
    lookupCount (setKey wc w f) x = if x = w then f else lookupCount wc x := by
  rw [lookupCount_eq_assocLookup, setKey_eq_assocUpd, assocLookup_upd, assocUpdVal_const,
    lookupCount_eq_assocLookup]

theorem keysNodup_setKey {wc : List Entry} (w : String) (f : Nat)
    (hnd : (fkeys wc).Nodup) : (fkeys (setKey wc w f)).Nodup := by
  rw [setKey_eq_assocUpd]
  exact fkeys_upd_nodup _ _ hnd

theorem mem_setKey {wc : List Entry} {w : String} {f : Nat}
    (hnd : (fkeys wc).Nodup) {p : Entry} :
    p ∈ setKey wc w f ↔ p = (w, f) ∨ (p ∈ wc ∧ p.1 ≠ w) := by
  rw [setKey_eq_assocUpd, mem_assocUpd hnd, assocUpdVal_const]

theorem mem_fkeys_setKey (wc : List Entry) (w : String) (f : Nat) (x : String) :
    x ∈ fkeys (setKey wc w f) ↔ x ∈ fkeys wc ∨ x = w := by
  rw [setKey_eq_assocUpd]
  exact fkeys_upd_mem _ _ _ _ _

theorem length_le_setKey (wc : List Entry) (w : String) (f : Nat) :
    wc.length ≤ (setKey wc w f).length := by
  rw [setKey_eq_assocUpd]
  exact length_le_assocUpd _ _ _ _

theorem nodup_of_keysNodup {α β : Type _} {l : List (α × β)}
    (hnd : (fkeys l).Nodup) : l.Nodup :=
  List.Nodup.of_map Prod.fst hnd

/-- With duplicate-free keys, entries sharing a key are equal. -/
theorem key_inj {α β : Type _} [BEq α] [LawfulBEq α] {l : List (α × β)}
    (hnd : (fkeys l).Nodup) {p q : α × β} (hp : p ∈ l) (hq : q ∈ l)
    (hk : p.1 = q.1) : p = q := by
  have h1 := find?_key_of_mem_nodup hnd hp
  have h2 := find?_key_of_mem_nodup hnd hq
  rw [hk] at h1
  rw [h1] at h2
  exact Option.some_inj.mp h2

/-- A duplicate-free selection out of a key-duplicate-free list has
duplicate-free keys. -/
theorem fkeysNodup_of_sub {l t : List Entry} (hK : (fkeys t).Nodup)
    (hnd : l.Nodup) (hsub : ∀ p ∈ l, p ∈ t) : (fkeys l).Nodup :=
  List.Nodup.map_on
    (fun x hx y hy hxy => key_inj hK (hsub x hx) (hsub y hy) hxy) hnd

theorem lookupCount_of_mem {wc : List Entry} (hnd : (fkeys wc).Nodup)
    {p : Entry} (hp : p ∈ wc) : lookupCount wc p.1 = p.2 := by
  rw [lookupCount_eq_assocLookup]
  exact (entry_eq_of_mem_nodup hnd hp 0).symm

theorem lookupCount_of_not_mem {wc : List Entry} {w : String}
    (h : w ∉ fkeys wc) : lookupCount wc w = 0 := by
  rw [lookupCount_eq_assocLookup]
  exact assocLookup_of_not_mem h 0

theorem mem_of_mem_fkeys_lookup {wc : List Entry} {w : String}
    (hk : w ∈ fkeys wc) : (w, lookupCount wc w) ∈ wc := by
  rw [lookupCount_eq_assocLookup]
  exact lookup_entry_mem hk 0

/-- At most one entry of a key-duplicate-free list has a given key. -/
theorem length_filter_key_le_one {l : List Entry} (hnd : (fkeys l).Nodup)
    (w : String) : (l.filter (fun p => p.1 == w)).length ≤ 1 := by
  induction l with
  | nil => simp
  | cons p rest ih =>
    have hnd' : (fkeys rest).Nodup :=
      (List.nodup_cons.mp (show (p.1 :: fkeys rest).Nodup from hnd)).2
    have hhead : p.1 ∉ fkeys rest :=
      (List.nodup_cons.mp (show (p.1 :: fkeys rest).Nodup from hnd)).1
    rw [List.filter_cons]
    by_cases hpw : p.1 = w
    · have hnil : rest.filter (fun q => q.1 == w) = [] := by
        rw [List.filter_eq_nil_iff]
        intro q hq
        simp only [beq_iff_eq]
        intro hqw
        exact hhead (hpw ▸ hqw ▸ mem_fkeys.mpr ⟨q, hq, rfl⟩)
      rw [if_pos (by simpa using hpw), hnil]
      simp
    · rw [if_neg (by simpa using hpw)]
      exact ih hnd'

theorem wordLe_of_not_le {a b : String} (h : ¬ wordLe b a = true) :
    wordLe a b = true := by
  rcases wordLe_total a b with h2 | h2
  · exact h2
  · exact absurd h2 h

theorem wordLe_of_wordLt {a b : String} (h : wordLt a b = true) :
    wordLe a b = true := by
  rw [wordLt] at h
  exact wordLe_of_not_le (by simpa using h)

theorem wordLe_of_wordLt_false {a b : String} (h : wordLt a b = false) :
    wordLe b a = true := by
  rw [wordLt] at h
  simpa using h

/-- Two duplicate-free lists, one inside the other and at least as long,
have the same members. -/
theorem mem_iff_of_subset_of_length {α : Type _} [DecidableEq α]
    {l t : List α} (hl : l.Nodup) (ht : t.Nodup)
    (hsub : ∀ a ∈ l, a ∈ t) (hlen : t.length ≤ l.length) :
    ∀ a, a ∈ l ↔ a ∈ t := by
  have hsubF : l.toFinset ⊆ t.toFinset := fun a ha => by
    rw [List.mem_toFinset] at ha ⊢
    exact hsub a ha
  have hcard : t.toFinset.card ≤ l.toFinset.card := by
    rw [List.toFinset_card_of_nodup hl, List.toFinset_card_of_nodup ht]
    exact hlen
  have heq := Finset.eq_of_subset_of_card_le hsubF hcard
  intro a
  rw [← List.mem_toFinset, ← List.mem_toFinset (l := t), heq]

end EntryLemmas

section TopSelLemmas

/-- `L` is a correct top-five selection from vocabulary `V`: sorted,
duplicate-free, of maximal size up to five, drawn from `V`, and ranking
at least as high as everything left out. -/
def TopSel (V L : List Entry) : Prop :=
  List.Sorted leTop L ∧ L.Nodup ∧ L.length = min 5 V.length ∧
    (∀ p ∈ L, p ∈ V) ∧ (∀ x ∈ V, x ∉ L → ∀ y ∈ L, leTop y x)

/-- The first five of the sorted vocabulary form a correct selection. -/
theorem topSel_take_sortTop {V : List Entry} (hnd : V.Nodup) :
    TopSel V ((sortTop V).take 5) := by
  have hperm := sortTop_perm V
  have hsorted := sortTop_sorted V
  refine ⟨?_, ?_, ?_, ?_, ?_⟩
  · exact List.Pairwise.sublist (List.take_sublist 5 _) hsorted
  · exact List.Nodup.sublist (List.take_sublist 5 _) (hperm.symm.nodup hnd)
  · rw [List.length_take, hperm.length_eq]
  · intro p hp
    exact hperm.mem_iff.mp (List.take_subset 5 _ hp)
  · intro x hx hnx y hy
    have hxs : x ∈ sortTop V := hperm.mem_iff.mpr hx
    have hxy : x ∈ (sortTop V).take 5 ++ (sortTop V).drop 5 := by
      rw [List.take_append_drop]
      exact hxs
    have hxd : x ∈ (sortTop V).drop 5 := by
      rcases List.mem_append.mp hxy with h | h
      · exact absurd h hnx
      · exact h
    have hsorted2 : List.Sorted leTop ((sortTop V).take 5 ++ (sortTop V).drop 5) := by
      rw [List.take_append_drop]
      exact hsorted
    exact (List.pairwise_append.mp hsorted2).2.2 y hy x hxd

/-- A correct selection is unique: it is the first five of the sorted
vocabulary. -/
theorem topSel_eq {V L : List Entry} (hnd : V.Nodup) (hsel : TopSel V L) :
    L = (sortTop V).take 5 := by
  obtain ⟨hs, hLnd, hlen, hsub, hdom⟩ := hsel
  obtain ⟨hs2, hTnd, hlen2, hsub2, hdom2⟩ := topSel_take_sortTop hnd
  have hlen3 : L.length = ((sortTop V).take 5).length := hlen.trans hlen2.symm
  have hmem : ∀ a, a ∈ L ↔ a ∈ (sortTop V).take 5 := by
    rcases Classical.em (∃ x, x ∈ L ∧ x ∉ (sortTop V).take 5) with ⟨x, hxL, hxT⟩ | hLT
    · have hTsubL : ∀ y ∈ (sortTop V).take 5, y ∈ L := by
        intro y hyT
        by_contra hyL
        have h1 : leTop y x := hdom2 x (hsub x hxL) hxT y hyT
        have h2 : leTop x y := hdom y (hsub2 y hyT) hyL x hxL
        have heq : y = x := antisymm h1 h2
        exact hxT (heq ▸ hyT)
      have h := mem_iff_of_subset_of_length hTnd hLnd hTsubL (le_of_eq hlen3)
      intro a
      exact (h a).symm
    · push_neg at hLT
      exact mem_iff_of_subset_of_length hLnd hTnd hLT (le_of_eq hlen3.symm)
  exact List.eq_of_perm_of_sorted
    ((List.perm_ext_iff_of_nodup hLnd hTnd).mpr hmem) hs hs2

/-- A correct selection from a vocabulary is one from any reordering of
it. -/
theorem topSel_perm {V V' L : List Entry} (h : V.Perm V') (hsel : TopSel V L) :
    TopSel V' L := by
  obtain ⟨hs, hnd, hlen, hsub, hdom⟩ := hsel
  refine ⟨hs, hnd, ?_, fun p hp => h.mem_iff.mp (hsub p hp),
    fun x hx hnx y hy => hdom x (h.mem_iff.mpr hx) hnx y hy⟩
  rw [← h.length_eq]
  exact hlen

/-- The fifth element of a sorted five-element list is its weakest. -/
theorem fifth_facts {L : List Entry} (hs : List.Sorted leTop L)
    (hlen : L.length = 5) :
    ∃ q, L[4]? = some q ∧ q ∈ L ∧ ∀ p ∈ L, p = q ∨ leTop p q := by
  have h4 : 4 < L.length := by omega
  refine ⟨L[4], List.getElem?_eq_getElem h4, List.getElem_mem h4, ?_⟩
  intro p hp
  rcases List.mem_iff_getElem.mp hp with ⟨i, hi, hip⟩
  by_cases hi4 : i = 4
  · left
    subst hi4
    exact hip.symm
  · right
    have hil : i < 4 := by omega
    have := hs.rel_get_of_lt (a := ⟨i, hi⟩) (b := ⟨4, h4⟩) (by simpa using hil)
    simpa [List.get_eq_getElem, hip] using this

end TopSelLemmas

section StepLemma

/-- One iteration of the changed-word loop keeps the selection correct:
if the working list is a correct top five of a vocabulary `V` and word
`w`'s count is raised to `f`, the qualification test plus
remove-append-sort-truncate yields a correct top five of the updated
vocabulary. -/
theorem reconcileStep_topSel {V L : List Entry} {w : String} {f : Nat}
    (hK : (fkeys V).Nodup) (hsel : TopSel V L) (hf : lookupCount V w < f) :
    TopSel (setKey V w f)
      (if shouldBeInTop5 w f L then insertOrUpdateInTop5 w f L else L) := by
  have hVnd : V.Nodup := nodup_of_keysNodup hK
  have hK2 : (fkeys (setKey V w f)).Nodup := keysNodup_setKey w f hK
  have hV2nd : (setKey V w f).Nodup := nodup_of_keysNodup hK2
  obtain ⟨hs, hLnd, hlen, hsub, hdom⟩ := hsel
  by_cases hsmall : L.length < 5
  · -- fewer than five entries: the word always qualifies and the update
    -- re-sorts the whole (small) vocabulary
    have hqual : shouldBeInTop5 w f L = true := by
      unfold shouldBeInTop5
      rw [if_pos hsmall]
    rw [if_pos hqual]
    have hVsmall : V.length < 5 := by
      by_contra hge
      push_neg at hge
      rw [hlen, Nat.min_eq_left hge] at hsmall
      exact lt_irrefl 5 hsmall
    have hVlen : V.length ≤ L.length := by
      rw [hlen, Nat.min_eq_right (le_of_lt hVsmall)]
    have hLV := mem_iff_of_subset_of_length hLnd hVnd hsub hVlen
    have hperm : L.Perm V := (List.perm_ext_iff_of_nodup hLnd hVnd).mpr hLV
    have h1 : (setKey V w f).Perm ((w, f) :: V.filter (fun p => !(p.1 == w))) := by
      have h := assocUpd_perm (l := V) (k := w) (fun _ => f) f hK
      rw [assocUpdVal_const] at h
      rw [setKey_eq_assocUpd]
      exact h
    have h3 : (L.filter (fun p => p.1 != w)).Perm (V.filter (fun p => !(p.1 == w))) :=
      hperm.filter _
    have hMperm : ((L.filter (fun p => p.1 != w)) ++ [(w, f)]).Perm (setKey V w f) :=
      ((List.perm_append_singleton _ _).trans (h3.cons _)).trans h1.symm
    have hrw : insertOrUpdateInTop5 w f L = (sortTop (setKey V w f)).take 5 := by
      unfold insertOrUpdateInTop5
      rw [sortTop_congr hMperm]
    rw [hrw]
    exact topSel_take_sortTop hV2nd
  · -- exactly five entries
    have hlen5 : L.length = 5 := by
      have hle : L.length ≤ 5 := by
        rw [hlen]
        exact Nat.min_le_left 5 V.length
      omega
    have hV5 : 5 ≤ V.length := by
      by_contra hlt
      push_neg at hlt
      rw [hlen, Nat.min_eq_right (le_of_lt hlt)] at hlen5
      omega
    have hVK : 5 ≤ (setKey V w f).length := le_trans hV5 (length_le_setKey V w f)
    obtain ⟨q, hq4, hqmem, hqdom⟩ := fifth_facts hs hlen5
    have hshould : shouldBeInTop5 w f L =
        (decide (q.2 < f) || (f == q.2 && wordLt w q.1)) := by
      unfold shouldBeInTop5
      rw [if_neg hsmall, hq4]
    by_cases hq : (decide (q.2 < f) || (f == q.2 && wordLt w q.1)) = true
    · -- the word qualifies against the fifth entry
      rw [hshould, if_pos hq]
      have b1 : leTop (w, f) q := by
        simp only [Bool.or_eq_true, Bool.and_eq_true] at hq
        rcases hq with h | ⟨h1, h2⟩
        · exact Or.inl (of_decide_eq_true h)
        · exact Or.inr ⟨beq_iff_eq.mp h1, wordLe_of_wordLt h2⟩
      have hLK : (fkeys L).Nodup := fkeysNodup_of_sub hK hLnd hsub
      have hFnd : (L.filter (fun p => p.1 != w)).Nodup := hLnd.filter _
      have hFne : ∀ p ∈ L.filter (fun p => p.1 != w), p.1 ≠ w := by
        intro p hp
        simpa using (List.mem_filter.mp hp).2
      have hMnd : ((L.filter (fun p => p.1 != w)) ++ [(w, f)]).Nodup := by
        rw [List.nodup_append]
        refine ⟨hFnd, List.nodup_singleton _, ?_⟩
        intro p hp hp2
        have hpw : p = (w, f) := by simpa using hp2
        exact hFne p hp (by rw [hpw])
      have hMsub : ∀ p ∈ (L.filter (fun p => p.1 != w)) ++ [(w, f)],
          p ∈ setKey V w f := by
        intro p hp
        rcases List.mem_append.mp hp with hpF | hpW
        · exact (mem_setKey hK).mpr
            (Or.inr ⟨hsub p (List.mem_filter.mp hpF).1, hFne p hpF⟩)
        · have hpw : p = (w, f) := by simpa using hpW
          exact (mem_setKey hK).mpr (Or.inl hpw)
      have hMlen : 5 ≤ ((L.filter (fun p => p.1 != w)) ++ [(w, f)]).length := by
        rw [List.length_append]
        have hsplit := List.length_eq_length_filter_add (l := L) (fun p => p.1 == w)
        have hone := length_filter_key_le_one hLK w
        have hsame : (L.filter (fun p => p.1 != w)).length =
            (L.filter (fun x => !(x.1 == w))).length := rfl
        simp only [List.length_singleton]
        omega
      obtain ⟨ts, tnd, tlen, tsub, tdom⟩ :=
        topSel_take_sortTop (V := (L.filter (fun p => p.1 != w)) ++ [(w, f)]) hMnd
      unfold insertOrUpdateInTop5
      refine ⟨ts, tnd, ?_, fun p hp => hMsub p (tsub p hp), ?_⟩
      · rw [tlen, Nat.min_eq_left hMlen, Nat.min_eq_left hVK]
      · intro x hx hnx y hy
        by_cases hxM : x ∈ (L.filter (fun p => p.1 != w)) ++ [(w, f)]
        · exact tdom x hxM hnx y hy
        · rcases (mem_setKey hK).mp hx with hxw | ⟨hxV, hxne⟩
          · exact absurd
              (by rw [hxw]; exact List.mem_append_right _ (by simp)) hxM
          · have hxL : x ∉ L := by
              intro hxL
              exact hxM (List.mem_append_left _
                (List.mem_filter.mpr ⟨hxL, by simpa using hxne⟩))
            have hdomx : ∀ z ∈ L, leTop z x := hdom x hxV hxL
            have hyM := tsub y hy
            rcases List.mem_append.mp hyM with hyF | hyW
            · exact hdomx y (List.mem_filter.mp hyF).1
            · have hyw : y = (w, f) := by simpa using hyW
              rw [hyw]
              exact IsTrans.trans _ _ _ b1 (hdomx q hqmem)
    · -- the word does not qualify: the list is untouched
      have hq' : (decide (q.2 < f) || (f == q.2 && wordLt w q.1)) = false :=
        Bool.eq_false_iff.mpr hq
      rw [hshould, if_neg (by simp [hq'])]
      obtain ⟨hdec, hand⟩ := Bool.or_eq_false_iff.mp hq'
      have hfle : f ≤ q.2 := Nat.not_lt.mp (of_decide_eq_false hdec)
      have htie : f = q.2 → wordLe q.1 w = true := by
        intro hfq
        rcases Bool.and_eq_false_iff.mp hand with h | h
        · exact absurd (beq_iff_eq.mpr hfq) (by rw [h]; exact Bool.false_ne_true)
        · exact wordLe_of_wordLt_false h
      have hqwf : leTop q (w, f) := by
        rcases Nat.lt_or_ge f q.2 with hlt | hge
        · exact Or.inl hlt
        · have hfq : f = q.2 := le_antisymm hfle hge
          exact Or.inr ⟨hfq.symm, htie hfq⟩
      have hwL : w ∉ fkeys L := by
        intro hwk
        rcases mem_fkeys.mp hwk with ⟨p, hpL, hpw⟩
        have hpV : p ∈ V := hsub p hpL
        have hp2 : p.2 < f := by
          have := lookupCount_of_mem hK hpV
          rw [hpw] at this
          omega
        rcases hqdom p hpL with hpq | hpq
        · rw [hpq] at hp2
          omega
        · have hq2p : q.2 ≤ p.2 := by
            rcases hpq with h | ⟨h, _⟩
            · exact le_of_lt h
            · exact le_of_eq h.symm
          omega
      refine ⟨hs, hLnd, ?_, ?_, ?_⟩
      · rw [hlen5, Nat.min_eq_left hVK]
      · intro p hp
        have hpne : p.1 ≠ w := fun hc => hwL (mem_fkeys.mpr ⟨p, hp, hc⟩)
        exact (mem_setKey hK).mpr (Or.inr ⟨hsub p hp, hpne⟩)
      · intro x hx hnx y hy
        rcases (mem_setKey hK).mp hx with hxw | ⟨hxV, hxne⟩
        · rw [hxw]
          rcases hqdom y hy with hyq | hyq
          · rw [hyq]
            exact hqwf
          · exact IsTrans.trans _ _ _ hyq hqwf
        · exact hdom x hxV hnx y hy

end StepLemma

section HybridLemmas

theorem assocUpdVal_of_mem {α β : Type _} [BEq α] [LawfulBEq α]
    {l : List (α × β)} {k : α} (hk : k ∈ fkeys l) (g : β → β) (v₀ d : β) :
    assocUpdVal l k g v₀ = g (assocLookup l k d) := by
  cases hf : l.find? (fun p => p.1 == k) with
  | none =>
    rcases mem_fkeys.mp hk with ⟨p, hp, hpk⟩
    exact absurd (by simpa using hpk) (List.find?_eq_none.mp hf p hp)
  | some p =>
    unfold assocUpdVal assocLookup
    rw [hf]

theorem assocUpdVal_of_not_mem {α β : Type _} [BEq α] [LawfulBEq α]
    {l : List (α × β)} {k : α} (hk : k ∉ fkeys l) (g : β → β) (v₀ : β) :
    assocUpdVal l k g v₀ = v₀ := by
  unfold assocUpdVal
  rw [find?_key_eq_none_of_not_mem hk]

theorem lookupCount_bumpWord (wc : List Entry) (u x : String) :
    lookupCount (bumpWord wc u) x = lookupCount wc x + (if x = u then 1 else 0) := by
  rw [lookupCount_eq_assocLookup, bumpWord_eq_assocUpd, assocLookup_upd]
  by_cases hxu : x = u
  · subst hxu
    rw [if_pos rfl, if_pos rfl]
    by_cases hk : x ∈ fkeys wc
    · rw [assocUpdVal_of_mem hk _ _ 0, lookupCount_eq_assocLookup]
    · rw [assocUpdVal_of_not_mem hk, lookupCount_eq_assocLookup,
        assocLookup_of_not_mem hk]
  · rw [if_neg hxu, if_neg hxu, lookupCount_eq_assocLookup, Nat.add_zero]

theorem chLookup_bumpChange (ch : List (Nat × Int)) (k : Nat) (d : Int) (x : Nat) :
    chLookup (bumpChange ch k d) x = chLookup ch x + (if x = k then d else 0) := by
  rw [chLookup_eq_assocLookup, bumpChange_eq_assocUpd, assocLookup_upd]
  by_cases hxk : x = k
  · subst hxk
    rw [if_pos rfl, if_pos rfl]
    by_cases hk : x ∈ fkeys ch
    · rw [assocUpdVal_of_mem hk _ _ 0, chLookup_eq_assocLookup]
    · rw [assocUpdVal_of_not_mem hk, chLookup_eq_assocLookup,
        assocLookup_of_not_mem hk]
      simp
  · rw [if_neg hxk, if_neg hxk, chLookup_eq_assocLookup, add_zero]

theorem lookupCount_hybridWc (wc : List Entry) (lk : String → Nat)
    (P : List String) (x : String) :
    lookupCount (hybridWc wc lk P) x = if x ∈ P then lk x else lookupCount wc x := by
  induction P generalizing wc with
  | nil => simp [hybridWc]
  | cons w P ih =>
    show lookupCount (hybridWc (setKey wc w (lk w)) lk P) x = _
    rw [ih]
    by_cases hxP : x ∈ P
    · rw [if_pos hxP, if_pos (List.mem_cons_of_mem w hxP)]
    · rw [if_neg hxP, lookupCount_setKey]
      by_cases hxw : x = w
      · subst hxw
        rw [if_pos rfl, if_pos (List.mem_cons_self x P)]
      · rw [if_neg hxw, if_neg (by simp [List.mem_cons, hxw, hxP])]

theorem keysNodup_hybridWc {wc : List Entry} (lk : String → Nat)
    (P : List String) (hnd : (fkeys wc).Nodup) :
    (fkeys (hybridWc wc lk P)).Nodup := by
  induction P generalizing wc with
  | nil => exact hnd
  | cons w P ih => exact ih (keysNodup_setKey w (lk w) hnd)

theorem mem_fkeys_hybridWc (wc : List Entry) (lk : String → Nat)
    (P : List String) (x : String) :
    x ∈ fkeys (hybridWc wc lk P) ↔ x ∈ fkeys wc ∨ x ∈ P := by
  induction P generalizing wc with
  | nil => simp [hybridWc]
  | cons w P ih =>
    show x ∈ fkeys (hybridWc (setKey wc w (lk w)) lk P) ↔ _
    rw [ih, mem_fkeys_setKey]
    simp [List.mem_cons]
    tauto

/-- Folding the reconciliation step over the changed words keeps the
selection correct against the hybrid vocabulary. -/
theorem foldl_reconcile_topSel {newWc V L : List Entry} {changed : List String}
    (hK : (fkeys V).Nodup) (hsel : TopSel V L) (hnd : changed.Nodup)
    (hlk : ∀ u ∈ changed, lookupCount V u < lookupCount newWc u) :
    TopSel (hybridWc V (fun u => lookupCount newWc u) changed)
      (changed.foldl (reconcileStep newWc) L) := by
  induction changed generalizing V L with
  | nil => exact hsel
  | cons w P ih =>
    have hw := hlk w (List.mem_cons_self w P)
    have hstep := reconcileStep_topSel (f := lookupCount newWc w) hK hsel hw
    show TopSel
      (hybridWc (setKey V w (lookupCount newWc w)) (fun u => lookupCount newWc u) P)
      (P.foldl (reconcileStep newWc) (reconcileStep newWc L w))
    refine ih (keysNodup_setKey _ _ hK) hstep ((List.nodup_cons.mp hnd).2) ?_
    intro u hu
    rw [lookupCount_setKey]
    have huw : u ≠ w := fun hc => (List.nodup_cons.mp hnd).1 (hc ▸ hu)
    rw [if_neg huw]
    exact hlk u (List.mem_cons_of_mem w hu)

end HybridLemmas

section BatchLemmas

/-- Number of distinct words currently holding frequency `f`. -/
def countVals (wc : List Entry) (f : Nat) : Nat := (valsOf wc).count f

theorem countVals_perm {wc wc' : List Entry} (h : wc.Perm wc') (f : Nat) :
    countVals wc f = countVals wc' f := (h.map _).count_eq f

theorem countVals_cons (p : Entry) (wc : List Entry) (f : Nat) :
    countVals (p :: wc) f = countVals wc f + (if p.2 = f then 1 else 0) := by
  unfold countVals valsOf
  rw [List.map_cons, List.count_cons]
  by_cases h : p.2 = f <;> simp [h]

theorem mem_fkeys_iff_lookup_pos {wc : List Entry} (hnd : (fkeys wc).Nodup)
    (hpos : ∀ p ∈ wc, 1 ≤ p.2) (x : String) :
    x ∈ fkeys wc ↔ 0 < lookupCount wc x := by
  constructor
  · intro h
    have hmem := mem_of_mem_fkeys_lookup h
    have := hpos _ hmem
    omega
  · intro h
    by_contra hn
    rw [lookupCount_of_not_mem hn] at h
    omega

theorem countVals_bumpWord {wc : List Entry} (hnd : (fkeys wc).Nodup)
    (hpos : ∀ p ∈ wc, 1 ≤ p.2) (u : String) (f : Nat) :
    (countVals (bumpWord wc u) f : Int) =
      (countVals wc f : Int) + (if f = lookupCount wc u + 1 then 1 else 0)
        - (if 0 < lookupCount wc u ∧ f = lookupCount wc u then 1 else 0) := by
  by_cases hk : u ∈ fkeys wc
  · have holdpos : 1 ≤ lookupCount wc u := hpos _ (mem_of_mem_fkeys_lookup hk)
    have hsplit : wc.Perm
        ((u, lookupCount wc u) :: wc.filter (fun p => !(p.1 == u))) := by
      have h := assoc_split (l := wc) (k := u) hnd hk 0
      rwa [← lookupCount_eq_assocLookup] at h
    have hbump : (bumpWord wc u).Perm
        ((u, lookupCount wc u + 1) :: wc.filter (fun p => !(p.1 == u))) := by
      have h := assocUpd_perm (l := wc) (k := u) (fun c => c + 1) 1 hnd
      rw [assocUpdVal_of_mem hk _ _ 0, ← lookupCount_eq_assocLookup] at h
      rw [bumpWord_eq_assocUpd]
      exact h
    rw [countVals_perm hbump, countVals_perm hsplit, countVals_cons, countVals_cons]
    by_cases h1 : f = lookupCount wc u + 1 <;> by_cases h2 : f = lookupCount wc u <;>
      simp [h1, h2, holdpos] <;> omega
  · have hold : lookupCount wc u = 0 := lookupCount_of_not_mem hk
    have hbump : bumpWord wc u = wc ++ [(u, 1)] := by
      rw [bumpWord_eq_assocUpd, assocUpd, if_neg (fun h => hk (any_key_iff.mp h))]
    rw [hold, hbump]
    unfold countVals valsOf
    rw [List.map_append, List.count_append]
    by_cases h1 : f = 1 <;> simp [h1, List.count_singleton] <;> omega

theorem mem_addChanged (s : List String) (u x : String) :
    x ∈ addChanged s u ↔ x ∈ s ∨ x = u := by
  unfold addChanged
  by_cases h : s.contains u = true
  · rw [if_pos h]
    have hu : u ∈ s := List.elem_iff.mp h
    constructor
    · exact Or.inl
    · rintro (hx | hx)
      · exact hx
      · exact hx ▸ hu
  · rw [if_neg h]
    simp [List.mem_append]

theorem nodup_addChanged {s : List String} (hnd : s.Nodup) (u : String) :
    (addChanged s u).Nodup := by
  unfold addChanged
  by_cases h : s.contains u = true
  · rw [if_pos h]
    exact hnd
  · rw [if_neg h]
    have hu : u ∉ s := fun hc => h (List.elem_iff.mpr hc)
    rw [List.nodup_append]
    refine ⟨hnd, List.nodup_singleton _, ?_⟩
    intro x hx hx2
    have hxu : x = u := by simpa using hx2
    exact hu (hxu ▸ hx)

theorem processToken_eq (acc : BatchAcc) (u : String) :
    processToken acc u =
      { wc := bumpWord acc.wc u,
        changes := bumpChange
          (if 0 < lookupCount acc.wc u then
            bumpChange acc.changes (lookupCount acc.wc u) (-1)
           else acc.changes) (lookupCount acc.wc u + 1) 1,
        changed := addChanged acc.changed u,
        total := acc.total + 1 } := by
  unfold processToken
  dsimp only
  rw [if_pos (by omega : lookupCount acc.wc u ≠ lookupCount acc.wc u + 1)]

/-- Everything the token loop of `add_words` guarantees about its
accumulator after processing a token list. -/
structure AccSpec (wc₀ : List Entry) (tokens : List String) (acc : BatchAcc) : Prop where
  wcNodup : (fkeys acc.wc).Nodup
  wcPos : ∀ p ∈ acc.wc, 1 ≤ p.2
  lkEq : ∀ x, lookupCount acc.wc x = lookupCount wc₀ x + (tokens.count x)
  chNodup : (fkeys acc.changes).Nodup
  chPos : ∀ p ∈ acc.changes, 1 ≤ p.1
  net : ∀ f, (countVals acc.wc f : Int) = (countVals wc₀ f : Int) + chLookup acc.changes f
  cwMem : ∀ x, x ∈ acc.changed ↔ x ∈ tokens
  cwNodup : acc.changed.Nodup

theorem accSpec_base (wc₀ : List Entry) (t₀ : Nat) (hnd : (fkeys wc₀).Nodup)
    (hpos : ∀ p ∈ wc₀, 1 ≤ p.2) :
    AccSpec wc₀ [] { wc := wc₀, changes := [], changed := [], total := t₀ } := by
  refine ⟨hnd, hpos, ?_, ?_, ?_, ?_, ?_, ?_⟩
  · intro x
    simp
  · simp [fkeys]
  · simp
  · intro f
    simp [chLookup]
  · intro x
    simp
  · simp

theorem accSpec_step {wc₀ : List Entry} {tokens : List String} {acc : BatchAcc}
    (h : AccSpec wc₀ tokens acc) (u : String) :
    AccSpec wc₀ (tokens ++ [u]) (processToken acc u) := by
  obtain ⟨wcNodup, wcPos, lkEq, chNodup, chPos, net, cwMem, cwNodup⟩ := h
  rw [processToken_eq]
  have hchmid : (fkeys (if 0 < lookupCount acc.wc u then
      bumpChange acc.changes (lookupCount acc.wc u) (-1) else acc.changes)).Nodup := by
    by_cases hcond : 0 < lookupCount acc.wc u
    · rw [if_pos hcond, bumpChange_eq_assocUpd]
      exact fkeys_upd_nodup _ _ chNodup
    · rw [if_neg hcond]
      exact chNodup
  have hchmidpos : ∀ p ∈ (if 0 < lookupCount acc.wc u then
      bumpChange acc.changes (lookupCount acc.wc u) (-1) else acc.changes), 1 ≤ p.1 := by
    by_cases hcond : 0 < lookupCount acc.wc u
    · rw [if_pos hcond]
      intro p hp
      rw [bumpChange_eq_assocUpd] at hp
      rcases (mem_assocUpd chNodup).mp hp with hpe | ⟨hpin, _⟩
      · rw [hpe]
        exact hcond
      · exact chPos p hpin
    · rw [if_neg hcond]
      exact chPos
  refine ⟨?_, ?_, ?_, ?_, ?_, ?_, ?_, ?_⟩ <;> dsimp only
  · rw [bumpWord_eq_assocUpd]
    exact fkeys_upd_nodup _ _ wcNodup
  · intro p hp
    rw [bumpWord_eq_assocUpd] at hp
    rcases (mem_assocUpd wcNodup).mp hp with hpe | ⟨hpin, _⟩
    · rw [hpe]
      by_cases hk : u ∈ fkeys acc.wc
      · rw [assocUpdVal_of_mem hk _ _ 0]
        omega
      · rw [assocUpdVal_of_not_mem hk]
    · exact wcPos p hpin
  · intro x
    rw [lookupCount_bumpWord, lkEq, List.count_append, List.count_singleton]
    by_cases hxu : x = u
    · subst hxu
      simp [Nat.add_assoc]
    · have hne : (u == x) = false := beq_eq_false_iff_ne.mpr (Ne.symm hxu)
      simp [hxu, hne]
  · rw [bumpChange_eq_assocUpd]
    exact fkeys_upd_nodup _ _ hchmid
  · intro p hp
    rw [bumpChange_eq_assocUpd] at hp
    rcases (mem_assocUpd hchmid).mp hp with hpe | ⟨hpin, _⟩
    · rw [hpe]
      omega
    · exact hchmidpos p hpin
  · intro f
    rw [countVals_bumpWord wcNodup wcPos, chLookup_bumpChange, net]
    have hmid : chLookup (if 0 < lookupCount acc.wc u then
        bumpChange acc.changes (lookupCount acc.wc u) (-1) else acc.changes) f =
        chLookup acc.changes f +
          (if 0 < lookupCount acc.wc u ∧ f = lookupCount acc.wc u then (-1) else 0) := by
      by_cases hcond : 0 < lookupCount acc.wc u
      · rw [if_pos hcond, chLookup_bumpChange]
        by_cases hf : f = lookupCount acc.wc u <;> simp [hf, hcond]
      · have hnc : ¬(0 < lookupCount acc.wc u ∧ f = lookupCount acc.wc u) := by
          intro hc
          exact hcond hc.1
        rw [if_neg hcond, if_neg hnc, add_zero]
    rw [hmid]
    by_cases h1 : f = lookupCount acc.wc u + 1 <;>
      by_cases h2 : 0 < lookupCount acc.wc u ∧ f = lookupCount acc.wc u <;>
      simp [h1, h2] <;> omega
  · intro x
    rw [mem_addChanged, cwMem]
    simp [List.mem_append]
  · exact nodup_addChanged cwNodup u

theorem accSpec_fold (tokens : List String) (wc₀ : List Entry) (t₀ : Nat)
    (hnd : (fkeys wc₀).Nodup) (hpos : ∀ p ∈ wc₀, 1 ≤ p.2) :
    AccSpec wc₀ tokens
      (tokens.foldl processToken { wc := wc₀, changes := [], changed := [], total := t₀ }) := by
  induction tokens using List.reverseRecOn with
  | nil => exact accSpec_base wc₀ t₀ hnd hpos
  | append_singleton T u ih =>
    rw [List.foldl_append]
    exact accSpec_step ih u

end BatchLemmas

section HistLemmas

/-- The frequency-count list represents counting function `m`: strictly
descending frequencies, node counts equal to `m` and positive, and every
frequency in `m`'s support present. -/
def HistRepr (l : List (Nat × Int)) (m : Nat → Nat) : Prop :=
  (fkeys l).Pairwise (fun a b => b < a) ∧
    (∀ p ∈ l, p.2 = (m p.1 : Int) ∧ 0 < m p.1) ∧
    (∀ f, 0 < m f → f ∈ fkeys l)

theorem histRepr_congr {l : List (Nat × Int)} {m m' : Nat → Nat}
    (heq : ∀ f, m f = m' f) (h : HistRepr l m) : HistRepr l m' := by
  obtain ⟨hs, hv, hsup⟩ := h
  refine ⟨hs, ?_, ?_⟩
  · intro p hp
    rw [← heq]
    exact hv p hp
  · intro f hf
    rw [← heq] at hf
    exact hsup f hf

theorem histKeysNodup {l : List (Nat × Int)} {m : Nat → Nat}
    (h : HistRepr l m) : (fkeys l).Nodup :=
  h.1.imp (fun hab => (Nat.ne_of_lt hab).symm)

theorem chLookup_cons (q : Nat × Int) (rest : List (Nat × Int)) (g : Nat) :
    chLookup (q :: rest) g = if q.1 = g then q.2 else chLookup rest g := by
  unfold chLookup
  rw [List.find?_cons]
  by_cases h : q.1 = g
  · simp [h]
  · have hb : (q.1 == g) = false := beq_eq_false_iff_ne.mpr h
    simp [h, hb]

theorem insertFreqNode_perm (l : List (Nat × Int)) (f : Nat) (c : Int) :
    (insertFreqNode l f c).Perm ((f, c) :: l) := by
  induction l with
  | nil => exact List.Perm.refl _
  | cons node rest ih =>
    unfold insertFreqNode
    by_cases h : f < node.1
    · rw [if_pos h]
      exact (ih.cons node).trans (List.Perm.swap _ _ _)
    · rw [if_neg h]

theorem insertFreqNode_sorted {l : List (Nat × Int)}
    (hs : (fkeys l).Pairwise (fun a b => b < a)) {f : Nat}
    (hf : f ∉ fkeys l) (c : Int) :
    (fkeys (insertFreqNode l f c)).Pairwise (fun a b => b < a) := by
  induction l with
  | nil => simp [insertFreqNode, fkeys]
  | cons node rest ih =>
    have hsrest : (fkeys rest).Pairwise (fun a b => b < a) :=
      (List.pairwise_cons.mp hs).2
    have hhead : ∀ b ∈ fkeys rest, b < node.1 := (List.pairwise_cons.mp hs).1
    have hfrest : f ∉ fkeys rest := fun hc => hf (by simp [fkeys]; right; simpa [fkeys] using hc)
    unfold insertFreqNode
    by_cases h : f < node.1
    · rw [if_pos h]
      have hperm : (fkeys (insertFreqNode rest f c)).Perm (f :: fkeys rest) :=
        (insertFreqNode_perm rest f c).map Prod.fst
      show (node.1 :: fkeys (insertFreqNode rest f c)).Pairwise (fun a b => b < a)
      rw [List.pairwise_cons]
      refine ⟨?_, ih hsrest hfrest⟩
      intro b hb
      rcases List.mem_cons.mp (hperm.mem_iff.mp hb) with hb | hb
      · rw [hb]
        exact h
      · exact hhead b hb
    · rw [if_neg h]
      have hne : node.1 ≠ f := by
        intro hc
        exact hf (by simp [fkeys, hc])
      have hlt : node.1 < f := by omega
      show (f :: node.1 :: fkeys rest).Pairwise (fun a b => b < a)
      rw [List.pairwise_cons]
      refine ⟨?_, hs⟩
      intro b hb
      rcases List.mem_cons.mp hb with hb | hb
      · rw [hb]
        exact hlt
      · exact lt_trans (hhead b hb) hlt

theorem fkeys_setFreqCount (l : List (Nat × Int)) (f : Nat) (c : Int) :
    fkeys (setFreqCount l f c) = fkeys l := by
  induction l with
  | nil => rfl
  | cons node rest ih =>
    unfold setFreqCount
    by_cases h : node.1 = f
    · rw [if_pos (by simpa using h)]
      show f :: fkeys rest = node.1 :: fkeys rest
      rw [h]
    · rw [if_neg (by simpa using h)]
      show node.1 :: fkeys (setFreqCount rest f c) = node.1 :: fkeys rest
      rw [ih]

theorem mem_setFreqCount {l : List (Nat × Int)} (hnd : (fkeys l).Nodup)
    {f : Nat} (c : Int) {p : Nat × Int} :
    p ∈ setFreqCount l f c → p = (f, c) ∨ (p ∈ l ∧ p.1 ≠ f) := by
  induction l with
  | nil => intro hp; cases hp
  | cons node rest ih =>
    have hnd' : (fkeys rest).Nodup :=
      (List.nodup_cons.mp (show (node.1 :: fkeys rest).Nodup from hnd)).2
    have hhead : node.1 ∉ fkeys rest :=
      (List.nodup_cons.mp (show (node.1 :: fkeys rest).Nodup from hnd)).1
    unfold setFreqCount
    by_cases h : node.1 = f
    · rw [if_pos (by simpa using h)]
      intro hp
      rcases List.mem_cons.mp hp with hp | hp
      · exact Or.inl hp
      · refine Or.inr ⟨List.mem_cons_of_mem node hp, ?_⟩
        intro hc
        exact hhead (h ▸ hc ▸ mem_fkeys.mpr ⟨p, hp, rfl⟩)
    · rw [if_neg (by simpa using h)]
      intro hp
      rcases List.mem_cons.mp hp with hp | hp
      · exact Or.inr ⟨hp ▸ List.mem_cons_self node rest, hp ▸ h⟩
      · rcases ih hnd' hp with hp2 | hp2
        · exact Or.inl hp2
        · exact Or.inr ⟨List.mem_cons_of_mem node hp2.1, hp2.2⟩

theorem mem_removeFreqNode {l : List (Nat × Int)} (hnd : (fkeys l).Nodup)
    (f : Nat) {p : Nat × Int} :
    p ∈ removeFreqNode l f ↔ p ∈ l ∧ p.1 ≠ f := by
  induction l with
  | nil => simp [removeFreqNode]
  | cons node rest ih =>
    have hnd' : (fkeys rest).Nodup :=
      (List.nodup_cons.mp (show (node.1 :: fkeys rest).Nodup from hnd)).2
    have hhead : node.1 ∉ fkeys rest :=
      (List.nodup_cons.mp (show (node.1 :: fkeys rest).Nodup from hnd)).1
    unfold removeFreqNode at ih ⊢
    rw [List.eraseP_cons]
    by_cases h : node.1 = f
    · have hb : (node.1 == f) = true := by simpa using h
      rw [hb, cond_true]
      constructor
      · intro hp
        refine ⟨List.mem_cons_of_mem node hp, ?_⟩
        intro hc
        exact hhead (h ▸ hc ▸ mem_fkeys.mpr ⟨p, hp, rfl⟩)
      · rintro ⟨hp, hpf⟩
        rcases List.mem_cons.mp hp with hp | hp
        · exact absurd (hp ▸ h) hpf
        · exact hp
    · have hb : (node.1 == f) = false := beq_eq_false_iff_ne.mpr h
      rw [hb, cond_false]
      constructor
      · intro hp
        rcases List.mem_cons.mp hp with hp | hp
        · exact ⟨hp ▸ List.mem_cons_self node rest, hp ▸ h⟩
        · have := (ih hnd').mp hp
          exact ⟨List.mem_cons_of_mem node this.1, this.2⟩
      · rintro ⟨hp, hpf⟩
        rcases List.mem_cons.mp hp with hp | hp
        · exact hp ▸ List.mem_cons_self node _
        · exact List.mem_cons_of_mem node ((ih hnd').mpr ⟨hp, hpf⟩)

theorem fkeys_removeFreqNode_sublist (l : List (Nat × Int)) (f : Nat) :
    (fkeys (removeFreqNode l f)).Sublist (fkeys l) :=
  (List.eraseP_sublist l).map Prod.fst

/-- `applyDelta` carries a histogram representation across a single
frequency delta whose result stays nonnegative. -/
theorem applyDelta_histRepr {l : List (Nat × Int)} {m : Nat → Nat} {f : Nat} {d : Int}
    (h : HistRepr l m) (hd : 0 ≤ (m f : Int) + d) :
    HistRepr (applyDelta l f d)
      (fun g => if g = f then ((m f : Int) + d).toNat else m g) := by
  obtain ⟨hsort, hval, hsup⟩ := h
  have hnd : (fkeys l).Nodup := histKeysNodup ⟨hsort, hval, hsup⟩
  by_cases hd0 : d = 0
  · subst hd0
    unfold applyDelta
    rw [if_pos rfl]
    apply histRepr_congr ?_ ⟨hsort, hval, hsup⟩
    intro g
    by_cases hg : g = f <;> simp [hg]
  · unfold applyDelta
    rw [if_neg hd0]
    cases hfind : findFreqNode l f with
    | some node =>
      have hnode := find?_key_mem_and_key hfind
      have hnv : node.2 = (m f : Int) := by
        rw [(hval node hnode.1).1, hnode.2]
      dsimp only
      by_cases hc : node.2 + d ≤ 0
      · rw [if_pos hc]
        have hzero : (m f : Int) + d = 0 := le_antisymm (hnv ▸ hc) hd
        refine ⟨?_, ?_, ?_⟩
        · exact List.Pairwise.sublist (fkeys_removeFreqNode_sublist l f) hsort
        · intro p hp
          have hmem := (mem_removeFreqNode hnd f).mp hp
          dsimp only
          rw [if_neg hmem.2]
          exact hval p hmem.1
        · intro g hg
          dsimp only at hg
          by_cases hgf : g = f
          · subst hgf
            rw [if_pos rfl, hzero] at hg
            simp at hg
          · rw [if_neg hgf] at hg
            rcases mem_fkeys.mp (hsup g hg) with ⟨p, hp, hpk⟩
            exact mem_fkeys.mpr
              ⟨p, (mem_removeFreqNode hnd f).mpr ⟨hp, by rw [hpk]; exact hgf⟩, hpk⟩
      · rw [if_neg hc]
        have hfmem : f ∈ fkeys l := by
          rw [← hnode.2]
          exact mem_fkeys.mpr ⟨node, hnode.1, rfl⟩
        have hpos : 0 < (m f : Int) + d := by omega
        refine ⟨?_, ?_, ?_⟩
        · rw [fkeys_setFreqCount]
          exact hsort
        · intro p hp
          rcases mem_setFreqCount hnd (node.2 + d) hp with hpe | ⟨hpl, hpf⟩
          · rw [hpe]
            dsimp only
            rw [if_pos rfl]
            constructor
            · rw [Int.toNat_of_nonneg hd, hnv]
            · omega
          · dsimp only
            rw [if_neg hpf]
            exact hval p hpl
        · intro g hg
          dsimp only at hg
          rw [fkeys_setFreqCount]
          by_cases hgf : g = f
          · subst hgf
            exact hfmem
          · rw [if_neg hgf] at hg
            exact hsup g hg
    | none =>
      have hfnot : f ∉ fkeys l := by
        intro hf
        rcases mem_fkeys.mp hf with ⟨p, hp, hpk⟩
        exact absurd (by simpa using hpk) (List.find?_eq_none.mp hfind p hp)
      have hmf : m f = 0 := by
        by_contra h0
        exact hfnot (hsup f (Nat.pos_of_ne_zero h0))
      by_cases hdp : 0 < d
      · rw [if_pos hdp]
        have hperm := insertFreqNode_perm l f d
        refine ⟨insertFreqNode_sorted hsort hfnot d, ?_, ?_⟩
        · intro p hp
          rcases List.mem_cons.mp (hperm.mem_iff.mp hp) with hpe | hpl
          · rw [hpe]
            dsimp only
            rw [if_pos rfl, hmf]
            constructor
            · simp [Int.toNat_of_nonneg (le_of_lt hdp)]
            · omega
          · have hpf : p.1 ≠ f := by
              intro hc
              exact hfnot (hc ▸ mem_fkeys.mpr ⟨p, hpl, rfl⟩)
            dsimp only
            rw [if_neg hpf]
            exact hval p hpl
        · intro g hg
          have hkeys : (fkeys (insertFreqNode l f d)).Perm (f :: fkeys l) :=
            hperm.map Prod.fst
          dsimp only at hg
          rw [hkeys.mem_iff]
          by_cases hgf : g = f
          · exact List.mem_cons.mpr (Or.inl hgf)
          · rw [if_neg hgf] at hg
            exact List.mem_cons.mpr (Or.inr (hsup g hg))
      · exfalso
        rw [hmf] at hd
        simp at hd
        omega

/-- Folding a duplicate-free delta map into a represented histogram
yields the histogram of the pointwise-updated counting function. -/
theorem updateFrequencyCounts_histRepr {changes l : List (Nat × Int)}
    {m : Nat → Nat} (h : HistRepr l m) (hnd : (fkeys changes).Nodup)
    (hge : ∀ f, 0 ≤ (m f : Int) + chLookup changes f) :
    HistRepr (updateFrequencyCounts l changes)
      (fun g => ((m g : Int) + chLookup changes g).toNat) := by
  induction changes generalizing l m with
  | nil =>
    apply histRepr_congr ?_ h
    intro g
    simp [chLookup]
  | cons q rest ih =>
    have hnd' : (fkeys rest).Nodup :=
      (List.nodup_cons.mp (show (q.1 :: fkeys rest).Nodup from hnd)).2
    have hhead : q.1 ∉ fkeys rest :=
      (List.nodup_cons.mp (show (q.1 :: fkeys rest).Nodup from hnd)).1
    have hrest0 : chLookup rest q.1 = 0 := by
      rw [chLookup_eq_assocLookup]
      exact assocLookup_of_not_mem hhead 0
    have hq2 : chLookup (q :: rest) q.1 = q.2 := by
      rw [chLookup_cons, if_pos rfl]
    have hstep := applyDelta_histRepr (f := q.1) (d := q.2) h (by
      have := hge q.1
      rwa [hq2] at this)
    have hqge : 0 ≤ (m q.1 : Int) + q.2 := by
      have := hge q.1
      rwa [hq2] at this
    have hge2 : ∀ f, 0 ≤ (((fun g => if g = q.1 then ((m q.1 : Int) + q.2).toNat else m g) f : Nat) : Int) + chLookup rest f := by
      intro f
      dsimp only
      by_cases hfq : f = q.1
      · subst hfq
        rw [if_pos rfl, hrest0, add_zero]
        exact Int.natCast_nonneg _
      · rw [if_neg hfq]
        have := hge f
        rwa [chLookup_cons, if_neg (fun hc => hfq hc.symm)] at this
    have hmain := ih hstep hnd' hge2
    show HistRepr (updateFrequencyCounts (applyDelta l q.1 q.2) rest) _
    apply histRepr_congr ?_ hmain
    intro g
    dsimp only
    by_cases hgq : g = q.1
    · subst hgq
      rw [if_pos rfl, hrest0, add_zero, chLookup_cons, if_pos rfl,
        Int.toNat_of_nonneg hqge]
    · rw [if_neg hgq, chLookup_cons, if_neg (fun hc => hgq hc.symm)]

end HistLemmas

section Invariant

/-- Two vocabularies with duplicate-free keys, the same key sets and the
same lookups hold the same entries. -/
theorem entry_perm_of_lookup_eq {A B : List Entry}
    (hA : (fkeys A).Nodup) (hB : (fkeys B).Nodup)
    (hmem : ∀ x, x ∈ fkeys A ↔ x ∈ fkeys B)
    (hlk : ∀ x, lookupCount A x = lookupCount B x) : A.Perm B := by
  rw [List.perm_ext_iff_of_nodup (nodup_of_keysNodup hA) (nodup_of_keysNodup hB)]
  intro p
  constructor
  · intro hp
    have hk : p.1 ∈ fkeys B := (hmem p.1).mp (mem_fkeys.mpr ⟨p, hp, rfl⟩)
    have hval : p.2 = lookupCount B p.1 := by
      rw [← hlk]
      exact (lookupCount_of_mem hA hp).symm
    have hpeq : p = (p.1, lookupCount B p.1) := Prod.ext rfl hval
    rw [hpeq]
    exact mem_of_mem_fkeys_lookup hk
  · intro hp
    have hk : p.1 ∈ fkeys A := (hmem p.1).mpr (mem_fkeys.mpr ⟨p, hp, rfl⟩)
    have hval : p.2 = lookupCount A p.1 := by
      rw [hlk]
      exact (lookupCount_of_mem hB hp).symm
    have hpeq : p = (p.1, lookupCount A p.1) := Prod.ext rfl hval
    rw [hpeq]
    exact mem_of_mem_fkeys_lookup hk

/-- The cross-structure invariant every reachable analyzer state
satisfies: exact counts with duplicate-free keys, a histogram
representing the per-frequency word counts, and a top-five list equal to
the first five of the sorted vocabulary. -/
def Inv (a : Analyzer) : Prop :=
  (fkeys a.word_counts).Nodup ∧
    (∀ p ∈ a.word_counts, 1 ≤ p.2) ∧
    HistRepr a.freq_list (fun f => countVals a.word_counts f) ∧
    a.top_five = (sortTop a.word_counts).take 5

theorem inv_init : Inv Analyzer.init := by
  refine ⟨?_, ?_, ⟨?_, ?_, ?_⟩, ?_⟩
  · simp [Analyzer.init, fkeys]
  · simp [Analyzer.init]
  · simp [Analyzer.init, fkeys]
  · simp [Analyzer.init]
  · intro f hf
    simp [Analyzer.init, countVals, valsOf] at hf
  · simp [Analyzer.init, sortTop, List.insertionSort]

theorem inv_addWords {a : Analyzer} (h : Inv a) (s : String) : Inv (addWords a s) := by
  obtain ⟨hnd, hpos, hhist, htop⟩ := h
  rw [addWords]
  by_cases hemp : (tokenize s).isEmpty = true
  · rw [if_pos hemp]
    exact ⟨hnd, hpos, hhist, htop⟩
  · rw [if_neg hemp]
    dsimp only
    have hspec := accSpec_fold (tokenize s) a.word_counts a.total_words hnd hpos
    set tokens := tokenize s with htok
    set acc := tokens.foldl processToken
      { wc := a.word_counts, changes := [], changed := [], total := a.total_words }
      with hacc
    have htokne : tokens ≠ [] := fun hc => hemp (List.isEmpty_iff.mpr hc)
    have hchne : acc.changed ≠ [] := by
      rcases List.exists_mem_of_ne_nil tokens htokne with ⟨t, ht⟩
      intro hc
      have := (hspec.cwMem t).mpr ht
      rw [hc] at this
      cases this
    have hchemp : acc.changed.isEmpty = false := by
      cases hch : acc.changed.isEmpty
      · rfl
      · exact absurd (List.isEmpty_iff.mp hch) hchne
    rw [hchemp]
    refine ⟨hspec.wcNodup, hspec.wcPos, ?_, ?_⟩
    · -- histogram component
      have hge : ∀ f, 0 ≤ ((countVals a.word_counts f : Nat) : Int) + chLookup acc.changes f := by
        intro f
        rw [← hspec.net f]
        exact Int.natCast_nonneg _
      have hstep := updateFrequencyCounts_histRepr hhist hspec.chNodup hge
      apply histRepr_congr ?_ hstep
      intro g
      rw [← hspec.net g, Int.toNat_natCast]
    · -- top-five component
      show (if (!false) = true then updateTopFiveIncremental acc.wc a.top_five acc.changed
        else a.top_five) = (sortTop acc.wc).take 5
      rw [if_pos (by simp)]
      rw [updateTopFiveIncremental]
      by_cases h5 : a.top_five.isEmpty = true
      · rw [if_pos h5]
        rfl
      · rw [if_neg h5]
        have hWnd : a.word_counts.Nodup := nodup_of_keysNodup hnd
        have hsel0 : TopSel a.word_counts a.top_five := by
          rw [htop]
          exact topSel_take_sortTop hWnd
        have hlk : ∀ u ∈ acc.changed,
            lookupCount a.word_counts u < lookupCount acc.wc u := by
          intro u hu
          have hut : u ∈ tokens := (hspec.cwMem u).mp hu
          have hcount : 0 < tokens.count u := List.count_pos_iff.mpr hut
          have := hspec.lkEq u
          omega
        have hfold := foldl_reconcile_topSel (V := a.word_counts) (L := a.top_five)
          hnd hsel0 hspec.cwNodup hlk
        have hhyb : (hybridWc a.word_counts (fun u => lookupCount acc.wc u)
            acc.changed).Perm acc.wc := by
          apply entry_perm_of_lookup_eq
          · exact keysNodup_hybridWc _ _ hnd
          · exact hspec.wcNodup
          · intro x
            rw [mem_fkeys_hybridWc, mem_fkeys_iff_lookup_pos hnd hpos,
              mem_fkeys_iff_lookup_pos hspec.wcNodup hspec.wcPos,
              hspec.lkEq x, hspec.cwMem x]
            constructor
            · rintro (hx | hx)
              · omega
              · have := List.count_pos_iff.mpr hx
                omega
            · intro hx
              by_cases hx0 : 0 < lookupCount a.word_counts x
              · exact Or.inl hx0
              · right
                have hcp : 0 < tokens.count x := by omega
                exact List.count_pos_iff.mp hcp
          · intro x
            rw [lookupCount_hybridWc]
            by_cases hx : x ∈ acc.changed
            · rw [if_pos hx]
            · rw [if_neg hx]
              have hxt : x ∉ tokens := fun hc => hx ((hspec.cwMem x).mpr hc)
              have hc0 : tokens.count x = 0 := List.count_eq_zero.mpr hxt
              rw [hspec.lkEq x, hc0, Nat.add_zero]
        have hsel2 : TopSel acc.wc
            (acc.changed.foldl (reconcileStep acc.wc) a.top_five) :=
          topSel_perm hhyb hfold
        exact topSel_eq (nodup_of_keysNodup hspec.wcNodup) hsel2

theorem inv_stepOp {a : Analyzer} (h : Inv a) (op : Op) : Inv (stepOp a op) := by
  cases op with
  | ingest raw => exact inv_addWords h raw
  | reset => exact inv_init

/-- Every reachable analyzer state satisfies the invariant. -/
theorem inv_runOps (ops : List Op) : Inv (runOps ops) := by
  induction ops using List.reverseRecOn with
  | nil => exact inv_init
  | append_singleton l op ih =>
    rw [runOps, List.foldl_append]
    exact inv_stepOp ih op

end Invariant

section QueryLemmas

theorem wcProj_foldl (tokens : List String) (acc : BatchAcc) :
    (tokens.foldl processToken acc).wc = tokens.foldl bumpWord acc.wc := by
  induction tokens generalizing acc with
  | nil => rfl
  | cons t ts ih =>
    rw [List.foldl_cons, List.foldl_cons]
    exact ih _

theorem lookupCount_foldl_bumpWord (tokens : List String) (wc : List Entry)
    (w : String) :
    lookupCount (tokens.foldl bumpWord wc) w = lookupCount wc w + tokens.count w := by
  induction tokens generalizing wc with
  | nil => simp
  | cons t ts ih =>
    rw [List.foldl_cons, ih, lookupCount_bumpWord, List.count_cons]
    by_cases h : w = t
    · subst h
      simp
      omega
    · have hne : (t == w) = false := beq_eq_false_iff_ne.mpr (Ne.symm h)
      simp [h, hne]

theorem addWords_of_tokenize_nil {a : Analyzer} {s : String}
    (h : tokenize s = []) : addWords a s = a := by
  rw [addWords, h]
  rfl

/-- Per-batch count bookkeeping of `add_words`. -/
theorem lookupCount_addWords (a : Analyzer) (s w : String) :
    lookupCount (addWords a s).word_counts w =
      lookupCount a.word_counts w + (tokenize s).count w := by
  by_cases hemp : (tokenize s).isEmpty = true
  · have hnil := List.isEmpty_iff.mp hemp
    rw [addWords_of_tokenize_nil hnil, hnil]
    simp
  · rw [addWords, if_neg hemp]
    dsimp only
    rw [wcProj_foldl, lookupCount_foldl_bumpWord]

theorem length_le_addWords (a : Analyzer) (s : String) :
    a.word_counts.length ≤ (addWords a s).word_counts.length := by
  by_cases hemp : (tokenize s).isEmpty = true
  · rw [addWords_of_tokenize_nil (List.isEmpty_iff.mp hemp)]
  · rw [addWords, if_neg hemp]
    dsimp only
    rw [wcProj_foldl]
    generalize a.word_counts = wc
    induction (tokenize s) generalizing wc with
    | nil => exact le_refl _
    | cons t ts ih =>
      rw [List.foldl_cons]
      calc wc.length ≤ (bumpWord wc t).length := by
            rw [bumpWord_eq_assocUpd]
            exact length_le_assocUpd _ _ _ _
        _ ≤ _ := ih _

theorem top_five_empty_iff {a : Analyzer} (h : Inv a) :
    a.top_five = [] ↔ a.word_counts = [] := by
  obtain ⟨_, _, _, htop⟩ := h
  rw [htop]
  constructor
  · intro ht
    have hsnil : sortTop a.word_counts = [] := by
      cases hs : sortTop a.word_counts with
      | nil => rfl
      | cons x xs =>
        rw [hs] at ht
        simp [List.take] at ht
    have hperm : a.word_counts.Perm [] := by
      rw [← hsnil]
      exact (sortTop_perm a.word_counts).symm
    exact hperm.eq_nil
  · intro hw
    rw [hw]
    rfl

theorem minVal_mem : ∀ {l : List Nat}, l ≠ [] → minVal l ∈ l := by
  intro l
  induction l with
  | nil => intro h; exact absurd rfl h
  | cons x rest ih =>
    intro _
    cases rest with
    | nil => simp [minVal]
    | cons y rest2 =>
      rw [minVal]
      rcases Nat.le_total x (minVal (y :: rest2)) with h | h
      · rw [Nat.min_eq_left h]
        exact List.mem_cons_self _ _
      · rw [Nat.min_eq_right h]
        exact List.mem_cons_of_mem x (ih (by simp))

theorem minVal_le : ∀ {l : List Nat} {x : Nat}, x ∈ l → minVal l ≤ x := by
  intro l
  induction l with
  | nil => intro x h; cases h
  | cons a rest ih =>
    intro x hx
    cases rest with
    | nil =>
      have : x = a := by simpa using hx
      rw [this, minVal]
    | cons y rest2 =>
      rw [minVal]
      rcases List.mem_cons.mp hx with hx | hx
      · rw [hx]
        exact Nat.min_le_left _ _
      · exact le_trans (Nat.min_le_right _ _) (ih hx)

theorem mem_of_getLast?_of_ne_nil {α : Type _} {l : List α} {x : α}
    (h : l.getLast? = some x) : x ∈ l := by
  cases l with
  | nil => cases h
  | cons a rest =>
    have hne : a :: rest ≠ [] := by simp
    rw [List.getLast?_eq_getLast _ hne] at h
    rw [← Option.some_inj.mp h]
    exact List.getLast_mem hne

theorem getLast?_le_of_sorted_desc : ∀ {l : List Nat},
    l.Pairwise (fun a b => b < a) → ∀ {m : Nat}, l.getLast? = some m →
      ∀ x ∈ l, m ≤ x := by
  intro l
  induction l with
  | nil => intro _ m hm; cases hm
  | cons a rest ih =>
    intro hs m hm x hx
    cases rest with
    | nil =>
      have hma : m = a := by
        have := hm
        simp at this
        omega
      have hxa : x = a := by simpa using hx
      rw [hma, hxa]
    | cons b rest2 =>
      have hm2 : (b :: rest2).getLast? = some m := by
        rwa [List.getLast?_cons_cons] at hm
      have hmtail : m ∈ b :: rest2 := mem_of_getLast?_of_ne_nil hm2
      rcases List.mem_cons.mp hx with hx | hx
      · have := (List.pairwise_cons.mp hs).1 m hmtail
        omega
      · exact ih (List.pairwise_cons.mp hs).2 hm2 x hx

end QueryLemmas

section RebuildLemmas

theorem word_counts_ne_nil_of_ingest {a : Analyzer} {raw : String}
    (h : tokenize raw ≠ []) : (addWords a raw).word_counts ≠ [] := by
  rcases List.exists_mem_of_ne_nil _ h with ⟨t, ht⟩
  intro hc
  have hcnt := lookupCount_addWords a raw t
  rw [hc] at hcnt
  have hpos : 0 < (tokenize raw).count t := List.count_pos_iff.mpr ht
  have hz : lookupCount [] t = 0 := rfl
  omega

theorem rebuildTriggered_eq_false_of_nonempty {a : Analyzer} (hI : Inv a)
    (hne : a.word_counts ≠ []) (raw : String) :
    rebuildTriggered a raw = false := by
  rw [rebuildTriggered]
  by_cases hemp : (tokenize raw).isEmpty = true
  · rw [if_pos hemp]
  · rw [if_neg hemp]
    dsimp only
    have h5 : a.top_five ≠ [] := fun hc => hne ((top_five_empty_iff hI).mp hc)
    have h5e : a.top_five.isEmpty = false := by
      cases h : a.top_five.isEmpty
      · rfl
      · exact absurd (List.isEmpty_iff.mp h) h5
    rw [h5e, Bool.and_false]

theorem rebuild_fold_le_one : ∀ (ops : List Op), (∀ op ∈ ops, op ≠ Op.reset) →
    ∀ (a : Analyzer) (n : Nat), Inv a → n ≤ 1 → (a.word_counts = [] → n = 0) →
      (ops.foldl rebuildStep (a, n)).2 ≤ 1 := by
  intro ops
  induction ops with
  | nil =>
    intro _ a n _ hle _
    exact hle
  | cons op rest ih =>
    intro hno a n hI hle hz
    cases op with
    | reset => exact absurd rfl (hno _ (List.mem_cons_self _ _))
    | ingest raw =>
      rw [List.foldl_cons]
      show (rest.foldl rebuildStep
        (addWords a raw, n + if rebuildTriggered a raw then 1 else 0)).2 ≤ 1
      by_cases htok : tokenize raw = []
      · have htrig : rebuildTriggered a raw = false := by
          rw [rebuildTriggered, htok]
          rfl
        rw [htrig, addWords_of_tokenize_nil htok]
        simpa using ih (fun o ho => hno o (List.mem_cons_of_mem _ ho)) a n hI hle hz
      · by_cases hwc : a.word_counts = []
        · have hn0 : n = 0 := hz hwc
          apply ih (fun o ho => hno o (List.mem_cons_of_mem _ ho))
          · exact inv_addWords hI raw
          · subst hn0
            by_cases ht : rebuildTriggered a raw = true <;> simp [ht]
          · intro hc
            exact absurd hc (word_counts_ne_nil_of_ingest htok)
        · have htrig := rebuildTriggered_eq_false_of_nonempty hI hwc raw
          rw [htrig]
          apply ih (fun o ho => hno o (List.mem_cons_of_mem _ ho))
          · exact inv_addWords hI raw
          · simpa using hle
          · intro hc
            have hlen := length_le_addWords a raw
            rw [hc] at hlen
            simp at hlen
            exact absurd hlen hwc

end RebuildLemmas

section MedianLemmas

instance natLeTransFun : IsTrans Nat (fun x y : Nat => x ≤ y) :=
  ⟨fun _ _ _ => Nat.le_trans⟩

instance natLeAntisymmFun : IsAntisymm Nat (fun x y : Nat => x ≤ y) :=
  ⟨fun _ _ => Nat.le_antisymm⟩

instance natLeTotalFun : IsTotal Nat (fun x y : Nat => x ≤ y) :=
  ⟨Nat.le_total⟩

/-- The code's median (sorting the dict-order value list) equals the
spec's median of the per-word frequency multiset. -/
theorem getMedian_eq_specMedian (a : Analyzer) :
    getMedianFrequency a = specMedian (↑(valsOf a.word_counts)) := by
  unfold getMedianFrequency specMedian
  by_cases hemp : a.word_counts.isEmpty = true
  · have hnil : a.word_counts = [] := List.isEmpty_iff.mp hemp
    have hv : valsOf a.word_counts = [] := by
      rw [hnil]
      rfl
    rw [if_pos hemp, if_pos (by rw [hv]; rfl)]
  · have hne : valsOf a.word_counts ≠ [] := by
      intro hc
      apply hemp
      rw [List.isEmpty_iff]
      cases hwc : a.word_counts with
      | nil => rfl
      | cons p rest =>
        rw [hwc] at hc
        cases hc
    have hne2 : ¬((↑(valsOf a.word_counts) : Multiset Nat) = 0) := by
      rw [Multiset.coe_eq_zero]
      exact hne
    have hsort : Multiset.sort (fun x y : Nat => x ≤ y) ↑(valsOf a.word_counts) =
        List.insertionSort (fun x y : Nat => x ≤ y)
          (a.word_counts.map (fun p => p.2)) := by
      refine List.eq_of_perm_of_sorted (r := fun x y : Nat => x ≤ y) ?_ ?_ ?_
      · have h1 : (Multiset.sort (fun x y : Nat => x ≤ y)
            ↑(valsOf a.word_counts)).Perm (valsOf a.word_counts) :=
          Multiset.coe_eq_coe.mp (Multiset.sort_eq (fun x y : Nat => x ≤ y) _)
        exact h1.trans (List.perm_insertionSort _ _).symm
      · exact Multiset.sort_sorted (fun x y : Nat => x ≤ y) _
      · exact List.sorted_insertionSort _ _
    rw [if_neg hemp, if_neg hne2, hsort]

end MedianLemmas

section SumLemmas

theorem sum_map_intCast (l : List Nat) (g : Nat → Nat) :
    (l.map (fun x => ((g x : Nat) : Int))).sum = (((l.map g).sum : Nat) : Int) := by
  induction l with
  | nil => rfl
  | cons x xs ih => simp [ih]

theorem filter_key_singleton {l : List (Nat × Int)} (hnd : (fkeys l).Nodup)
    {f : Nat} {c : Int} (hmem : (f, c) ∈ l) :
    l.filter (fun p => p.1 == f) = [(f, c)] := by
  induction l with
  | nil => cases hmem
  | cons q rest ih =>
    have hnd' : (fkeys rest).Nodup :=
      (List.nodup_cons.mp (show (q.1 :: fkeys rest).Nodup from hnd)).2
    have hhead : q.1 ∉ fkeys rest :=
      (List.nodup_cons.mp (show (q.1 :: fkeys rest).Nodup from hnd)).1
    rw [List.filter_cons]
    by_cases hq : q.1 = f
    · rw [if_pos (by simpa using hq)]
      have hqeq : q = (f, c) := by
        rcases List.mem_cons.mp hmem with h | h
        · exact h.symm
        · exfalso
          apply hhead
          rw [hq]
          exact mem_fkeys.mpr ⟨(f, c), h, rfl⟩
      have hrest : rest.filter (fun p => p.1 == f) = [] := by
        rw [List.filter_eq_nil_iff]
        intro p hp
        simp only [beq_iff_eq]
        intro hpf
        apply hhead
        rw [hq]
        exact mem_fkeys.mpr ⟨p, hp, hpf⟩
      rw [hrest, hqeq]
    · rw [if_neg (by simpa using hq)]
      apply ih hnd'
      rcases List.mem_cons.mp hmem with h | h
      · exact absurd (congrArg Prod.fst h.symm) hq
      · exact h

end SumLemmas

section Claims

/-- C1: for every operation sequence, the incrementally maintained
top-five list equals the brute-force full rebuild — the first five
entries of the vocabulary restricted to words with frequency at least
one, sorted by (frequency descending, word ascending) — with at most
five entries and no duplicated words. -/
theorem C1_topK_matches_full_rebuild (ops : List Op) :
    getTopFiveMostFrequent (runOps ops) = specTopK (runOps ops).word_counts ∧
      (getTopFiveMostFrequent (runOps ops)).length ≤ 5 ∧
      (fkeys (getTopFiveMostFrequent (runOps ops))).Nodup := by
  obtain ⟨hnd, hpos, hhist, htop⟩ := inv_runOps ops
  have hfil : (runOps ops).word_counts.filter (fun p => 1 ≤ p.2) =
      (runOps ops).word_counts := by
    rw [List.filter_eq_self]
    intro p hp
    simpa using hpos p hp
  have hsel := topSel_take_sortTop (V := (runOps ops).word_counts)
    (nodup_of_keysNodup hnd)
  refine ⟨?_, ?_, ?_⟩
  · show (runOps ops).top_five = _
    rw [htop, specTopK, hfil]
  · show (runOps ops).top_five.length ≤ 5
    rw [htop]
    exact List.length_take_le 5 _
  · show (fkeys (runOps ops).top_five).Nodup
    rw [htop]
    exact fkeysNodup_of_sub hnd hsel.2.1 hsel.2.2.2.1

/-- C2: after any operation sequence, the stored frequency of any
normalized token equals its number of occurrences across the batches
ingested since construction or the most recent reset. -/
theorem C2_count_fidelity (ops : List Op) (w : String) :
    lookupCount (getAllFrequencies (runOps ops)) w = occurrencesSinceReset ops w := by
  induction ops using List.reverseRecOn with
  | nil => rfl
  | append_singleton l op ih =>
    cases op with
    | ingest raw =>
      show lookupCount ((l ++ [Op.ingest raw]).foldl stepOp Analyzer.init).word_counts w = _
      rw [List.foldl_append]
      show lookupCount (addWords (runOps l) raw).word_counts w = _
      rw [lookupCount_addWords]
      rw [occurrencesSinceReset, List.foldl_append]
      show _ = occurrencesSinceReset l w + (tokenize raw).count w
      rw [← ih]
      rfl
    | reset =>
      show lookupCount ((l ++ [Op.reset]).foldl stepOp Analyzer.init).word_counts w = _
      rw [List.foldl_append]
      rw [occurrencesSinceReset, List.foldl_append]
      rfl

/-- C3: in every reachable state the histogram node counts sum to the
number of distinct words, and every frequency held by at least one word
has exactly one node, carrying exactly the number of distinct words at
that frequency. -/
theorem C3_histogram_consistency (ops : List Op) :
    (((runOps ops).freq_list).map (fun p => p.2)).sum =
        ((runOps ops).word_counts.length : Int) ∧
      ∀ f : Nat, 0 < countVals (runOps ops).word_counts f →
        (runOps ops).freq_list.filter (fun p => p.1 == f) =
          [(f, (countVals (runOps ops).word_counts f : Int))] := by
  obtain ⟨hnd, hpos, hhist, htop⟩ := inv_runOps ops
  obtain ⟨hsort, hval, hsup⟩ := hhist
  have hknd : (fkeys (runOps ops).freq_list).Nodup := histKeysNodup ⟨hsort, hval, hsup⟩
  constructor
  · have hmapeq : (runOps ops).freq_list.map (fun p => p.2) =
        (runOps ops).freq_list.map
          (fun p => ((countVals (runOps ops).word_counts p.1 : Nat) : Int)) :=
      List.map_congr_left (fun p hp => (hval p hp).1)
    have hcomp : (runOps ops).freq_list.map
        (fun p => ((countVals (runOps ops).word_counts p.1 : Nat) : Int)) =
        (fkeys (runOps ops).freq_list).map
          (fun f => ((countVals (runOps ops).word_counts f : Nat) : Int)) := by
      rw [fkeys, List.map_map]
      rfl
    have hkeysperm : (fkeys (runOps ops).freq_list).Perm
        (valsOf (runOps ops).word_counts).dedup := by
      rw [List.perm_ext_iff_of_nodup hknd (List.nodup_dedup _)]
      intro f
      rw [List.mem_dedup]
      constructor
      · intro hf
        rcases mem_fkeys.mp hf with ⟨p, hp, hpk⟩
        have hc := (hval p hp).2
        rw [hpk] at hc
        exact List.count_pos_iff.mp hc
      · intro hf
        exact hsup f (List.count_pos_iff.mpr hf)
    rw [hmapeq, hcomp,
      (hkeysperm.map (fun f => ((countVals (runOps ops).word_counts f : Nat) : Int))).sum_eq,
      sum_map_intCast]
    have hlen := List.sum_map_count_dedup_eq_length (valsOf (runOps ops).word_counts)
    show ((((valsOf (runOps ops).word_counts).dedup.map
      (fun f => (valsOf (runOps ops).word_counts).count f)).sum : Nat) : Int) = _
    rw [hlen]
    show (((runOps ops).word_counts.map (fun p => p.2)).length : Int) = _
    rw [List.length_map]
  · intro f hf
    have hfk : f ∈ fkeys (runOps ops).freq_list := hsup f hf
    rcases mem_fkeys.mp hfk with ⟨p, hp, hpk⟩
    have hpv := (hval p hp).1
    have hpeq : p = (f, (countVals (runOps ops).word_counts f : Int)) := by
      rw [← hpk]
      exact Prod.ext rfl (by rw [hpv])
    exact filter_key_singleton hknd (hpeq ▸ hp)

theorem C3_histogram_consistency_w :
    0 < countVals (runOps [Op.ingest "a, b, a"]).word_counts 2 ∧
      (runOps [Op.ingest "a, b, a"]).freq_list.filter (fun p => p.1 == 2) =
        [(2, (countVals (runOps [Op.ingest "a, b, a"]).word_counts 2 : Int))] :=
  ⟨by decide, (C3_histogram_consistency [Op.ingest "a, b, a"]).2 2 (by decide)⟩

/-- C4: in every reachable state the reported median is the statistical
median of the multiset holding one frequency value per distinct word:
midpoint of the ascending sort, averaging the central pair when the
vocabulary size is even, 0 when empty. -/
theorem C4_median_statistical (ops : List Op) :
    getMedianFrequency (runOps ops) =
      specMedian (↑(valsOf (runOps ops).word_counts)) :=
  getMedian_eq_specMedian (runOps ops)

/-- C5: `clear` returns the analyzer to the freshly constructed state,
so every subsequent query gives the fresh-state answer: empty top five,
lowest frequency 0, median 0.0, empty frequency mapping, empty
histogram. -/
theorem C5_reset_fresh (a : Analyzer) :
    clear a = Analyzer.init ∧
      getTopFiveMostFrequent (clear a) = [] ∧
      getLowestFrequency (clear a) = 0 ∧
      getMedianFrequency (clear a) = 0 ∧
      getAllFrequencies (clear a) = [] ∧
      getFrequencyCounts (clear a) = [] :=
  ⟨rfl, rfl, rfl, rfl, rfl, rfl⟩

/-- C6: in every reachable state the histogram node list is strictly
descending by frequency (hence no two nodes share one), and every node
count is strictly positive — a node whose count would drop to zero or
below is removed within the same update and never observable. -/
theorem C6_histogram_shape (ops : List Op) :
    (fkeys (runOps ops).freq_list).Pairwise (fun a b => b < a) ∧
      ∀ p ∈ (runOps ops).freq_list, 0 < p.2 := by
  obtain ⟨hnd, hpos, ⟨hsort, hval, hsup⟩, htop⟩ := inv_runOps ops
  refine ⟨hsort, ?_⟩
  intro p hp
  obtain ⟨h1, h2⟩ := hval p hp
  rw [h1]
  exact_mod_cast h2

theorem C6_histogram_shape_w :
    (2, (1 : Int)) ∈ (runOps [Op.ingest "a, a"]).freq_list ∧ 0 < ((2 : Nat), (1 : Int)).2 :=
  ⟨by decide, (C6_histogram_shape [Op.ingest "a, a"]).2 (2, 1) (by decide)⟩

/-- C7: in every reachable state the reported lowest frequency is the
frequency of the last (smallest) histogram node, which equals the
minimum occurrence count over the vocabulary, and is 0 when no words
are present. -/
theorem C7_lowest_frequency (ops : List Op) :
    getLowestFrequency (runOps ops) = minVal (valsOf (runOps ops).word_counts) := by
  obtain ⟨hnd, hpos, ⟨hsort, hval, hsup⟩, htop⟩ := inv_runOps ops
  by_cases hwc : (runOps ops).word_counts = []
  · have hfl : (runOps ops).freq_list = [] := by
      cases hfl : (runOps ops).freq_list with
      | nil => rfl
      | cons p rest =>
        exfalso
        have hp : p ∈ (runOps ops).freq_list := by
          rw [hfl]
          exact List.mem_cons_self _ _
        have h2 : 0 < countVals (runOps ops).word_counts p.1 := (hval p hp).2
        rw [hwc] at h2
        simp [countVals, valsOf] at h2
    rw [getLowestFrequency, hfl, hwc]
    rfl
  · have hvne : valsOf (runOps ops).word_counts ≠ [] := by
      intro hc
      apply hwc
      cases hl : (runOps ops).word_counts with
      | nil => rfl
      | cons p rest =>
        rw [hl] at hc
        cases hc
    have hmv := minVal_mem hvne
    have hmvpos : 0 < countVals (runOps ops).word_counts
        (minVal (valsOf (runOps ops).word_counts)) :=
      List.count_pos_iff.mpr hmv
    have hmvk := hsup _ hmvpos
    have hflne : (runOps ops).freq_list ≠ [] := by
      intro hc
      rw [hc] at hmvk
      cases hmvk
    obtain ⟨last, hlast⟩ :=
      Option.ne_none_iff_exists'.mp
        (fun hc => hflne (List.getLast?_eq_none_iff.mp hc))
    have hlmem : last ∈ (runOps ops).freq_list := mem_of_getLast?_of_ne_nil hlast
    have hlk : (fkeys (runOps ops).freq_list).getLast? = some last.1 := by
      rw [fkeys, List.getLast?_map, hlast]
      rfl
    have hlmin : ∀ k ∈ fkeys (runOps ops).freq_list, last.1 ≤ k :=
      getLast?_le_of_sorted_desc hsort hlk
    have hlc := (hval last hlmem).2
    have hlvals : last.1 ∈ valsOf (runOps ops).word_counts :=
      List.count_pos_iff.mp hlc
    have h1 : minVal (valsOf (runOps ops).word_counts) ≤ last.1 := minVal_le hlvals
    have h2 : last.1 ≤ minVal (valsOf (runOps ops).word_counts) := hlmin _ hmvk
    rw [getLowestFrequency, hlast]
    dsimp only
    omega

/-- C8: tokenization splits on commas, trims and case-folds each piece
and discards empty pieces; an input whose comma-separated pieces all
trim to nothing (empty, whitespace-only, or only empty fields)
tokenizes to nothing and leaves the analyzer state exactly unchanged. -/
theorem C8_empty_input_noop (a : Analyzer) (s : String)
    (h : ∀ piece ∈ splitOnComma s.data, trimChars piece = []) :
    tokenize s = [] ∧ addWords a s = a := by
  have htok : tokenize s = [] := by
    rw [tokenize]
    have hfil : (splitOnComma s.data).filter
        (fun piece => !(trimChars piece).isEmpty) = [] := by
      rw [List.filter_eq_nil_iff]
      intro piece hp
      rw [h piece hp]
      simp
    rw [hfil]
    rfl
  exact ⟨htok, addWords_of_tokenize_nil htok⟩

theorem C8_empty_input_noop_w :
    (∀ piece ∈ splitOnComma (" ,  ,").data, trimChars piece = []) ∧
      (tokenize " ,  ," = [] ∧
        addWords (addWords Analyzer.init "x") " ,  ," = addWords Analyzer.init "x") :=
  ⟨by decide, C8_empty_input_noop (addWords Analyzer.init "x") " ,  ," (by decide)⟩

/-- C9 counterexample: with a reset between two non-empty batches the
full-rebuild path runs twice, so "at most once over any sequence of
operations including resets" is false as stated. -/
theorem C9_rebuild_counterexample :
    countRebuilds [Op.ingest "a", Op.reset, Op.ingest "a"] = 2 ∧
      ¬ countRebuilds [Op.ingest "a", Op.reset, Op.ingest "a"] ≤ 1 := by
  constructor
  · decide
  · decide

/-- C9 (amended): within any operation sequence free of resets — that
is, within one reset epoch — the full-rebuild path executes at most
once, on the first non-empty batch; every later batch takes only the
incremental path. -/
theorem C9_rebuild_once_per_epoch (ops : List Op) (h : Op.reset ∉ ops) :
    countRebuilds ops ≤ 1 := by
  rw [countRebuilds]
  exact rebuild_fold_le_one ops (fun op hop hc => h (hc ▸ hop)) Analyzer.init 0
    inv_init (by omega) (fun _ => rfl)

theorem C9_rebuild_once_per_epoch_w :
    (Op.reset ∉ [Op.ingest "a", Op.ingest "b"]) ∧
      countRebuilds [Op.ingest "a", Op.ingest "b"] ≤ 1 :=
  ⟨by decide, C9_rebuild_once_per_epoch [Op.ingest "a", Op.ingest "b"] (by decide)⟩

/-- C10: splitting happens only at commas, so a piece with interior
whitespace is one single word: ingesting "new york" yields exactly the
one vocabulary entry "new york" with count 1, and neither "new" nor
"york" becomes a word. -/
theorem C10_interior_whitespace_single_word :
    tokenize "new york" = ["new york"] ∧
      getAllFrequencies (addWords Analyzer.init "new york") = [("new york", 1)] ∧
      lookupCount (getAllFrequencies (addWords Analyzer.init "new york")) "new" = 0 ∧
      lookupCount (getAllFrequencies (addWords Analyzer.init "new york")) "york" = 0 := by
  refine ⟨?_, ?_, ?_, ?_⟩ <;> decide

end Claims

end WordFreq
